import Mathlib

/-!
Shallow embedding of the date-driven profit/loss cost-allocation engine of the
project-management application (source: the storage layer, `DatabaseStorage`),
together with theorems checking the specification's claims about it.

Modelling conventions:
* JavaScript `Date` instants are integers (milliseconds since the Unix epoch).
  The server clock ("today" / `new Date()`) is passed as an explicit parameter.
* The server timezone is taken to be UTC, so `getFullYear`/`getMonth` agree
  with their UTC counterparts; the civil calendar is computed with the
  standard days-from-civil/civil-from-days integer algorithm.
* Monetary amounts and salaries are exact rationals; the numeric claims are
  about the algorithm's arithmetic, stated over `ℚ`.
* JavaScript `Map` objects are association lists with unique keys:
  `Map.get` is `mget`, `Map.set` is `mset` (replace in place, else append),
  matching insertion-order semantics.
* In-place mutation of a `Util` record held in a map (`util.workingDays++`)
  is `incWorking`/`incTotal`; when the key is absent the JS code would throw,
  the embedding leaves the map unchanged (the engine only ever touches keys
  it has initialised).
-/

namespace ProjectPL

set_option maxRecDepth 8000

/-! ## Time: instants, UTC days, the civil calendar, financial-year labels -/

def msPerDay : Int := 86400000

/-- UTC midnight at or before instant `t`: `Date.UTC(getUTCFullYear, getUTCMonth, getUTCDate)`. -/
def dayStart (t : Int) : Int := msPerDay * (t.fdiv msPerDay)

/-- Exclusive end of the UTC day containing `t` (`dayStartUTC + 24*60*60*1000`). -/
def dayEnd (t : Int) : Int := dayStart t + msPerDay

/-- Civil date (year, month 1..12, day 1..31) from a count of days since
1970-01-01, by the standard era-based integer algorithm (proleptic Gregorian). -/
def civilFromDays (z0 : Int) : Int × Int × Int :=
  let z := z0 + 719468
  let era := z.fdiv 146097
  let doe := z - era * 146097
  let yoe := (doe - doe / 1460 + doe / 36524 - doe / 146096) / 365
  let y := yoe + era * 400
  let doy := doe - (365 * yoe + yoe / 4 - yoe / 100)
  let mp := (5 * doy + 2) / 153
  let d := doy - (153 * mp + 2) / 5 + 1
  let m := mp + (if mp < 10 then 3 else (-9 : Int))
  (y + (if m ≤ 2 then 1 else 0), m, d)

/-- `date.getFullYear()` (server timezone = UTC). -/
def jsFullYear (t : Int) : Int := (civilFromDays (t.fdiv msPerDay)).1

/-- `date.getMonth()` — 0-based month (server timezone = UTC). -/
def jsMonth (t : Int) : Int := (civilFromDays (t.fdiv msPerDay)).2.1 - 1

/-- JavaScript `s.slice(-2)`: the last two characters (the whole string if shorter). -/
def jsSlice2 (s : String) : String :=
  if s.length ≤ 2 then s else s.drop (s.length - 2)

/-- The label `` `${year}-${(year+1).toString().slice(-2)}` ``. -/
def fyLabelOfYear (year : Int) : String :=
  toString year ++ "-" ++ jsSlice2 (toString (year + 1))

/-- `getFinancialYearForDate`: April (getMonth() ≥ 3) starts the financial year. -/
def getFinancialYearForDate (t : Int) : String :=
  if jsMonth t ≥ 3 then fyLabelOfYear (jsFullYear t)
  else fyLabelOfYear (jsFullYear t - 1)

/-! ## Sorting (the source's `Array.prototype.sort` with a numeric-key comparator) -/

def insertAscBy {α : Type} (key : α → Int) (x : α) : List α → List α
  | [] => [x]
  | y :: ys => if key x ≤ key y then x :: y :: ys else y :: insertAscBy key x ys

/-- Sort ascending by an integer key (`(a, b) => key(a) - key(b)`). -/
def sortAscBy {α : Type} (key : α → Int) : List α → List α
  | [] => []
  | x :: xs => insertAscBy key x (sortAscBy key xs)

/-- Sort descending by an integer key (`(a, b) => key(b) - key(a)`). -/
def sortDescBy {α : Type} (key : α → Int) (l : List α) : List α :=
  sortAscBy (fun a => -(key a)) l

theorem mem_insertAscBy {α : Type} (key : α → Int) (x : α) (l : List α) (a : α) :
    a ∈ insertAscBy key x l ↔ a = x ∨ a ∈ l := by
  induction l with
  | nil => simp [insertAscBy]
  | cons y ys ih =>
    by_cases h : key x ≤ key y
    · simp [insertAscBy, h]
    · simp only [insertAscBy, if_neg h, List.mem_cons, ih]
      tauto

theorem mem_sortAscBy {α : Type} (key : α → Int) (l : List α) (a : α) :
    a ∈ sortAscBy key l ↔ a ∈ l := by
  induction l with
  | nil => simp [sortAscBy]
  | cons x xs ih => simp [sortAscBy, mem_insertAscBy, ih]

theorem mem_sortDescBy {α : Type} (key : α → Int) (l : List α) (a : α) :
    a ∈ sortDescBy key l ↔ a ∈ l := mem_sortAscBy _ l a

theorem sortAscBy_eq_nil {α : Type} (key : α → Int) (l : List α)
    (h : sortAscBy key l = []) : l = [] := by
  cases l with
  | nil => rfl
  | cons x xs =>
    exfalso
    have : x ∈ sortAscBy key (x :: xs) := (mem_sortAscBy key _ x).mpr (by simp)
    rw [h] at this
    simp at this

/-- The head of an ascending sort is a minimum of the list. -/
theorem sortAscBy_head_min {α : Type} (key : α → Int) (l : List α) (h : α) (t : List α)
    (hs : sortAscBy key l = h :: t) : h ∈ l ∧ ∀ a ∈ l, key h ≤ key a := by
  induction l generalizing h t with
  | nil => simp [sortAscBy] at hs
  | cons x xs ih =>
    simp only [sortAscBy] at hs
    cases hsx : sortAscBy key xs with
    | nil =>
      have hxs : xs = [] := sortAscBy_eq_nil key xs hsx
      subst hxs
      simp [sortAscBy, insertAscBy] at hs
      obtain ⟨h1, _⟩ := hs
      subst h1
      simp
    | cons h' t' =>
      rw [hsx] at hs
      have ih' := ih h' t' hsx
      by_cases hle : key x ≤ key h'
      · simp only [insertAscBy, if_pos hle] at hs
        have h1 : h = x := by
          injection hs with e1 _
          exact e1.symm
        subst h1
        constructor
        · simp
        · intro a ha
          rcases List.mem_cons.mp ha with rfl | ha
          · exact le_refl _
          · exact le_trans hle (ih'.2 a ha)
      · simp only [insertAscBy, if_neg hle] at hs
        have h1 : h = h' := by
          injection hs with e1 _
          exact e1.symm
        subst h1
        constructor
        · exact List.mem_cons_of_mem x ih'.1
        · intro a ha
          rcases List.mem_cons.mp ha with rfl | ha
          · exact le_of_lt (lt_of_not_le hle)
          · exact ih'.2 a ha

/-- The head of a descending sort is a maximum of the list. -/
theorem sortDescBy_head_max {α : Type} (key : α → Int) (l : List α) (h : α) (t : List α)
    (hs : sortDescBy key l = h :: t) : h ∈ l ∧ ∀ a ∈ l, key a ≤ key h := by
  have := sortAscBy_head_min (fun a => -(key a)) l h t hs
  refine ⟨this.1, fun a ha => ?_⟩
  have h2 := this.2 a ha
  dsimp only at h2
  omega

theorem sortDescBy_eq_nil {α : Type} (key : α → Int) (l : List α)
    (h : sortDescBy key l = []) : l = [] := sortAscBy_eq_nil _ l h

/-! ## JavaScript `Map` objects as association lists with unique keys -/

/-- `Map.get(k)`: the value at the first (in a well-formed map, only) entry for `k`. -/
def mget {α : Type} : List (String × α) → String → Option α
  | [], _ => none
  | p :: rest, k => if p.1 = k then some p.2 else mget rest k

/-- `Map.set(k, v)`: replace the entry for `k` in place, else append at the end. -/
def mset {α : Type} : List (String × α) → String → α → List (String × α)
  | [], k, v => [(k, v)]
  | p :: rest, k, v => if p.1 = k then (k, v) :: rest else p :: mset rest k v

theorem mget_mset_self {α : Type} (m : List (String × α)) (k : String) (v : α) :
    mget (mset m k v) k = some v := by
  induction m with
  | nil => simp [mget, mset]
  | cons p rest ih =>
    by_cases h : p.1 = k
    · simp [mset, mget, h]
    · simp [mset, mget, h, ih]

theorem mget_mset_ne {α : Type} (m : List (String × α)) (k k' : String) (v : α)
    (hne : k' ≠ k) : mget (mset m k v) k' = mget m k' := by
  have hkk : ¬ k = k' := fun h => hne h.symm
  induction m with
  | nil => simp [mget, mset, hkk]
  | cons p rest ih =>
    by_cases h : p.1 = k
    · subst h
      simp [mset, mget, hkk]
    · by_cases h' : p.1 = k'
      · simp [mset, mget, h, h', hne]
      · simp [mset, mget, h, h', ih]

theorem mem_mset {α : Type} (m : List (String × α)) (k : String) (v : α) (p : String × α)
    (hp : p ∈ mset m k v) : p = (k, v) ∨ p ∈ m := by
  induction m with
  | nil => simpa [mset] using hp
  | cons q rest ih =>
    by_cases h : q.1 = k
    · simp only [mset, if_pos h, List.mem_cons] at hp
      rcases hp with rfl | hp
      · left; rfl
      · right; exact List.mem_cons_of_mem q hp
    · simp only [mset, if_neg h, List.mem_cons] at hp
      rcases hp with rfl | hp
      · right; simp
      · rcases ih hp with h1 | h1
        · left; exact h1
        · right; exact List.mem_cons_of_mem q h1

theorem mget_isSome_mset {α : Type} (m : List (String × α)) (k k' : String) (v : α)
    (h : (mget (mset m k v) k').isSome) : k' = k ∨ (mget m k').isSome := by
  by_cases hk : k' = k
  · left; exact hk
  · right; rwa [mget_mset_ne m k k' v hk] at h

theorem mget_eq_some_mem {α : Type} (m : List (String × α)) (k : String) (v : α)
    (h : mget m k = some v) : (k, v) ∈ m := by
  induction m with
  | nil => simp [mget] at h
  | cons p rest ih =>
    by_cases hk : p.1 = k
    · simp only [mget, if_pos hk] at h
      have hp : p = (k, v) := by
        obtain ⟨p1, p2⟩ := p
        simp only at hk h
        injection h with h2
        simp [hk, h2]
      rw [← hp]
      exact List.mem_cons_self p rest
    · simp only [mget, if_neg hk] at h
      exact List.mem_cons_of_mem p (ih h)

/-- Well-formedness of a map: no duplicate keys. -/
def KeysNodup {α : Type} (m : List (String × α)) : Prop := (m.map (·.1)).Nodup

theorem keysNodup_nil {α : Type} : KeysNodup ([] : List (String × α)) := by
  simp [KeysNodup]

theorem mget_eq_none_not_mem {α : Type} (m : List (String × α)) (k : String)
    (h : mget m k = none) (v : α) : (k, v) ∉ m := by
  induction m with
  | nil => simp
  | cons p rest ih =>
    by_cases hk : p.1 = k
    · simp [mget, hk] at h
    · simp only [mget, if_neg hk] at h
      intro hmem
      rcases List.mem_cons.mp hmem with rfl | hmem
      · exact hk rfl
      · exact ih h hmem

theorem keysNodup_mset {α : Type} (m : List (String × α)) (k : String) (v : α)
    (h : KeysNodup m) : KeysNodup (mset m k v) := by
  induction m with
  | nil => simp [KeysNodup, mset]
  | cons p rest ih =>
    simp only [KeysNodup, List.map_cons, List.nodup_cons] at h
    by_cases hk : p.1 = k
    · subst hk
      simpa [KeysNodup, mset] using h
    · have hrest := ih h.2
      simp only [mset, if_neg hk, KeysNodup, List.map_cons, List.nodup_cons]
      refine ⟨?_, hrest⟩
      intro hmem
      rcases List.mem_map.mp hmem with ⟨q, hq, hq1⟩
      rcases mem_mset rest k v q hq with rfl | hq'
      · exact hk hq1.symm
      · exact h.1 (List.mem_map.mpr ⟨q, hq', hq1⟩)

theorem mget_of_mem_keysNodup {α : Type} (m : List (String × α)) (k : String) (v : α)
    (hnd : KeysNodup m) (hmem : (k, v) ∈ m) : mget m k = some v := by
  induction m with
  | nil => simp at hmem
  | cons p rest ih =>
    simp only [KeysNodup, List.map_cons, List.nodup_cons] at hnd
    rcases List.mem_cons.mp hmem with rfl | hmem
    · simp [mget]
    · by_cases hk : p.1 = k
      · exfalso
        exact hnd.1 (List.mem_map.mpr ⟨(k, v), hmem, hk.symm⟩)
      · simp only [mget, if_neg hk]
        exact ih hnd.2 hmem

/-! ## Employee utilization counters -/

structure Util where
  workingDays : Nat
  totalDaysInAnalysis : Nat
deriving DecidableEq, Repr

/-- `employeeUtilization.get(id)!.workingDays++` (no-op when the key is absent,
where the source would throw). -/
def incWorking : List (String × Util) → String → List (String × Util)
  | [], _ => []
  | p :: rest, k =>
    if p.1 = k then (p.1, ⟨p.2.workingDays + 1, p.2.totalDaysInAnalysis⟩) :: rest
    else p :: incWorking rest k

/-- `employeeUtilization.get(id)!.totalDaysInAnalysis++` (no-op when absent). -/
def incTotal : List (String × Util) → String → List (String × Util)
  | [], _ => []
  | p :: rest, k =>
    if p.1 = k then (p.1, ⟨p.2.workingDays, p.2.totalDaysInAnalysis + 1⟩) :: rest
    else p :: incTotal rest k

theorem mget_incWorking (m : List (String × Util)) (k k' : String) :
    mget (incWorking m k) k' =
      if k' = k then (mget m k').map (fun u => ⟨u.workingDays + 1, u.totalDaysInAnalysis⟩)
      else mget m k' := by
  induction m with
  | nil => simp [incWorking, mget]
  | cons p rest ih =>
    by_cases h : p.1 = k
    · subst h
      by_cases h' : p.1 = k'
      · subst h'
        simp [incWorking, mget]
      · have h'' : ¬ k' = p.1 := fun hh => h' hh.symm
        simp [incWorking, mget, h', h'']
    · by_cases h' : p.1 = k'
      · subst h'
        simp [incWorking, mget, h]
      · simp [incWorking, mget, h, h', ih]

theorem mget_incTotal (m : List (String × Util)) (k k' : String) :
    mget (incTotal m k) k' =
      if k' = k then (mget m k').map (fun u => ⟨u.workingDays, u.totalDaysInAnalysis + 1⟩)
      else mget m k' := by
  induction m with
  | nil => simp [incTotal, mget]
  | cons p rest ih =>
    by_cases h : p.1 = k
    · subst h
      by_cases h' : p.1 = k'
      · subst h'
        simp [incTotal, mget]
      · have h'' : ¬ k' = p.1 := fun hh => h' hh.symm
        simp [incTotal, mget, h', h'']
    · by_cases h' : p.1 = k'
      · subst h'
        simp [incTotal, mget, h]
      · simp [incTotal, mget, h, h', ih]

/-! ## Data model (snapshots handed to the engine by the storage layer) -/

structure Employee where
  id : String
  name : String
  salary : Option ℚ
deriving DecidableEq, Repr

/-- One row of `getAllProjectAssignmentRecords` (assignment joined with its employee). -/
structure AssignmentRecord where
  employeeId : String
  employee : Employee
  assignedAt : Int
  unassignedAt : Option Int
deriving DecidableEq, Repr

structure SalaryRecord where
  employeeId : String
  financialYear : String
  salary : ℚ
  effectiveFrom : Int
deriving DecidableEq, Repr

structure Extension where
  newEndDate : Option Int
  extendedBudget : Option ℚ
  actualCompletionDate : Option Int
deriving DecidableEq, Repr

structure StatusChange where
  status : String
  changedAt : Int
deriving DecidableEq, Repr

/-- A `ProjectWithDetails` snapshot: the project row plus its extensions,
status-change history and full (current and historical) assignment records. -/
structure Project where
  id : String
  name : String
  startDate : Int
  endDate : Int
  completionDate : Option Int
  budget : ℚ
  status : String
  extensions : List Extension
  statusHistory : List StatusChange
  assignments : List AssignmentRecord
deriving DecidableEq, Repr

/-! ## Timeline resolver -/

/-- `getProjectEffectiveEndDate`: latest extension `actualCompletionDate`,
else latest extension `newEndDate`, else the project's `completionDate`,
else its scheduled `endDate`.  Each "latest" is the head of the filtered
list sorted descending by the date, exactly as in the source. -/
def getProjectEffectiveEndDate (project : Project) : Int :=
  match sortDescBy (fun e => e.actualCompletionDate.getD 0)
      (project.extensions.filter (fun e => e.actualCompletionDate.isSome)) with
  | e :: _ => e.actualCompletionDate.getD 0
  | [] =>
    match sortDescBy (fun e => e.newEndDate.getD 0)
        (project.extensions.filter (fun e => e.newEndDate.isSome)) with
    | e :: _ => e.newEndDate.getD 0
    | [] =>
      match project.completionDate with
      | some c => c
      | none => project.endDate

/-- The event scan of `isProjectOnHoldOnDate`: walk ascending history, stop at
events after the target date, set the flag on "on-hold", clear it on
"in-progress" or "completed". -/
def onHoldScan (t : Int) : List StatusChange → Bool → Bool
  | [], onHold => onHold
  | sc :: rest, onHold =>
    if sc.changedAt > t then onHold
    else
      let normalizedStatus := sc.status.toLower.trim
      if normalizedStatus = "on-hold" then onHoldScan t rest true
      else if normalizedStatus = "in-progress" ∨ normalizedStatus = "completed" then
        onHoldScan t rest false
      else onHoldScan t rest onHold

/-- `isProjectOnHoldOnDate`: default false on empty history, otherwise scan the
history sorted ascending by `changedAt`. -/
def isProjectOnHoldOnDate (statusHistory : List StatusChange) (t : Int) : Bool :=
  if statusHistory.isEmpty then false
  else onHoldScan t (sortAscBy (fun sc => sc.changedAt) statusHistory) false

/-! ## Assignment resolver -/

/-- The per-day record filter of `calculateDateDrivenCosts`:
`assignedAt < dayEndExclusiveUTC && (!unassignedAt || unassignedAt >= dayStartUTC)`. -/
def filterAssignedToday (records : List AssignmentRecord) (t : Int) : List AssignmentRecord :=
  records.filter (fun r =>
    decide (r.assignedAt < dayEnd t) &&
      (match r.unassignedAt with
       | none => true
       | some u => decide (dayStart t ≤ u)))

/-- `getEmployeeAssignmentPeriod` (returning the `(start, end)` pair): the record
with the earliest `assignedAt` is selected; a recorded start after the project's
end date is clamped to the project start, otherwise to the later of record start
and project start; the end is the earlier of `unassignedAt` and the project end.
With no record at all the source returns `{start: new Date(), end: new Date(0)}`. -/
def getEmployeeAssignmentPeriod (records : List AssignmentRecord)
    (projectStartDate projectEndDate now : Int) : Int × Int :=
  match (sortAscBy (fun r => r.assignedAt) records).head? with
  | none => (now, 0)
  | some assignment =>
    let assignmentStart := assignment.assignedAt
    let effectiveStart :=
      if assignmentStart > projectEndDate then projectStartDate
      else if assignmentStart > projectStartDate then assignmentStart else projectStartDate
    let effectiveEnd :=
      match assignment.unassignedAt with
      | some u => if u < projectEndDate then u else projectEndDate
      | none => projectEndDate
    (effectiveStart, effectiveEnd)

/-! ## Salary resolver -/

/-- `getEmployee`: lookup by id. -/
def getEmployee (employees : List Employee) (employeeId : String) : Option Employee :=
  employees.find? (fun e => decide (e.id = employeeId))

/-- One query of `getEmployeeSalaryOnDate`: the employee's records carrying a
given financial-year label, ordered by `effectiveFrom` descending. -/
def salaryRecordsForFY (salaries : List SalaryRecord) (employeeId fyLabel : String) :
    List SalaryRecord :=
  sortDescBy (fun r => r.effectiveFrom)
    (salaries.filter (fun r =>
      decide (r.employeeId = employeeId) && decide (r.financialYear = fyLabel)))

/-- The last-resort query of `getEmployeeSalaryOnDate`: all of the employee's
records, ordered by `effectiveFrom` descending. -/
def salaryRecordsAny (salaries : List SalaryRecord) (employeeId : String) :
    List SalaryRecord :=
  sortDescBy (fun r => r.effectiveFrom)
    (salaries.filter (fun r => decide (r.employeeId = employeeId)))

/-- `getEmployeeSalaryOnDate`: records of the day's financial year (exact label,
then the `"FY "`-prefixed label, then any record of the employee), ordered by
`effectiveFrom` descending; the first one effective on or before the date wins;
otherwise the employee's legacy flat `salary` field; otherwise 0. -/
def getEmployeeSalaryOnDate (salaries : List SalaryRecord) (employees : List Employee)
    (employeeId : String) (t : Int) : ℚ :=
  let financialYear := getFinancialYearForDate t
  let recs1 := salaryRecordsForFY salaries employeeId financialYear
  let recs2 :=
    if recs1.isEmpty then salaryRecordsForFY salaries employeeId ("FY " ++ financialYear)
    else recs1
  let recs3 := if recs2.isEmpty then salaryRecordsAny salaries employeeId else recs2
  match recs3.find? (fun r => decide (r.effectiveFrom ≤ t)) with
  | some r => r.salary
  | none =>
    match (getEmployee employees employeeId).bind Employee.salary with
    | some s => s
    | none => 0

/-! ## Cost-allocation engine (`calculateDateDrivenCosts`) -/

/-- The four accumulator maps of `calculateDateDrivenCosts`. -/
structure CostState where
  projectCosts : List (String × ℚ)
  employeeCosts : List (String × ℚ)
  financialYearCosts : List (String × ℚ)
  employeeUtilization : List (String × Util)
deriving DecidableEq, Repr

/-- The per-project body of the "Find all active projects on this date" loop:
include the project when the day lies in `[startDate, min(effective end,
today)]`, the project is not on hold, and some assignment record overlaps the
day. -/
def activeStep (t today : Int) (acc : List (String × Project × List Employee))
    (project : Project) : List (String × Project × List Employee) :=
  let projectStartDate := project.startDate
  let projectEndDate := getProjectEffectiveEndDate project
  let analysisEndDate := if projectEndDate > today then today else projectEndDate
  if projectStartDate ≤ t ∧ t ≤ analysisEndDate then
    if isProjectOnHoldOnDate project.statusHistory t then acc
    else
      let assignedEmployeesToday := (filterAssignedToday project.assignments t).map
        (fun r => r.employee)
      if assignedEmployeesToday.isEmpty then acc
      else mset acc project.id (project, assignedEmployeesToday)
  else acc

/-- One day's `activeProjectsToday` map: projects whose `[startDate, min(effective
end, today)]` window contains the day, that are not on hold, and that have at
least one assignment record overlapping the day (keyed by project id, carrying
the assigned employees). -/
def buildActiveToday (allProjects : List Project) (t today : Int) :
    List (String × Project × List Employee) :=
  allProjects.foldl (activeStep t today) []

/-- The day's `employeeProjectCounts`: how many active projects each employee
appears in. -/
def countsOf (active : List (String × Project × List Employee)) : List (String × Nat) :=
  active.foldl
    (fun m en =>
      en.2.2.foldl (fun m e => mset m e.id ((mget m e.id).getD 0 + 1)) m)
    []

/-- `employeeProjectCounts.get(employee.id) || 1` (JavaScript `||`: `0` also
falls back to `1`). -/
def getCountOr1 (counts : List (String × Nat)) (k : String) : Nat :=
  match mget counts k with
  | some n => if n = 0 then 1 else n
  | none => 1

/-- The body of the cost-distribution loop for one `(project, employee)` active
pair: skip non-positive salaries, otherwise add
`annualSalary / 365 / simultaneousProjects` to the project's, the employee's and
the day's financial-year totals and bump the employee's working-day counter. -/
def applyPair (salaries : List SalaryRecord) (employees : List Employee)
    (counts : List (String × Nat)) (t : Int) (projectId : String) (e : Employee)
    (s : CostState) : CostState :=
  let annualSalary := getEmployeeSalaryOnDate salaries employees e.id t
  if annualSalary ≤ 0 then s
  else
    let dailyRate := annualSalary / 365
    let simultaneousProjects := getCountOr1 counts e.id
    let proportionalDailyCost := dailyRate / (simultaneousProjects : ℚ)
    let fy := getFinancialYearForDate t
    { projectCosts :=
        mset s.projectCosts projectId ((mget s.projectCosts projectId).getD 0 + proportionalDailyCost)
      employeeCosts :=
        mset s.employeeCosts e.id ((mget s.employeeCosts e.id).getD 0 + proportionalDailyCost)
      financialYearCosts :=
        mset s.financialYearCosts fy ((mget s.financialYearCosts fy).getD 0 + proportionalDailyCost)
      employeeUtilization := incWorking s.employeeUtilization e.id }

/-- The "Distribute costs for this date" double loop. -/
def distributeDay (salaries : List SalaryRecord) (employees : List Employee)
    (counts : List (String × Nat)) (t : Int)
    (active : List (String × Project × List Employee)) (s : CostState) : CostState :=
  active.foldl
    (fun s en => en.2.2.foldl (fun s e => applyPair salaries employees counts t en.1 e s) s)
    s

/-- `incTotalDays`: after distribution, every supplied employee's
total-days-in-analysis counter is bumped for the day. -/
def incTotalDays (employees : List Employee) (util : List (String × Util)) :
    List (String × Util) :=
  employees.foldl (fun u e => incTotal u e.id) util

/-- One iteration of the day-by-day `while` loop. -/
def processDay (salaries : List SalaryRecord) (allEmployees : List Employee)
    (allProjects : List Project) (today t : Int) (s : CostState) : CostState :=
  let active := buildActiveToday allProjects t today
  let counts := countsOf active
  let s1 := distributeDay salaries allEmployees counts t active s
  { s1 with employeeUtilization := incTotalDays allEmployees s1.employeeUtilization }

/-- The analysis window: earliest project start and latest
`min(effective end, today)`; `none` when there are no projects. -/
def analysisBounds (allProjects : List Project) (today : Int) : Option (Int × Int) :=
  allProjects.foldl
    (fun acc project =>
      let startDate := project.startDate
      let endDate := getProjectEffectiveEndDate project
      let analysisEnd := if endDate > today then today else endDate
      match acc with
      | none => some (startDate, analysisEnd)
      | some (earliestStart, latestEnd) =>
        some ((if startDate < earliestStart then startDate else earliestStart),
              (if analysisEnd > latestEnd then analysisEnd else latestEnd)))
    none

/-- Number of iterations of `while (currentDate <= latestEnd)` stepping one
calendar day at a time from `earliestStart`. -/
def numDays (earliestStart latestEnd : Int) : Nat :=
  if latestEnd < earliestStart then 0
  else ((latestEnd - earliestStart).fdiv msPerDay).toNat + 1

/-- The instants visited by the day-by-day walk. -/
def analysisDays (allProjects : List Project) (today : Int) : List Int :=
  match analysisBounds allProjects today with
  | none => []
  | some (earliestStart, latestEnd) =>
    (List.range (numDays earliestStart latestEnd)).map
      (fun i => earliestStart + msPerDay * i)

/-- `calculateDateDrivenCosts`: initialise a zero utilization entry per employee,
then walk the analysis window day by day (an empty project set yields no days,
matching the source's early return). -/
def calculateDateDrivenCosts (allProjects : List Project) (allEmployees : List Employee)
    (salaries : List SalaryRecord) (today : Int) : CostState :=
  let initUtil := allEmployees.foldl
    (fun m e => mset m e.id ⟨0, 0⟩) ([] : List (String × Util))
  let s0 : CostState := ⟨[], [], [], initUtil⟩
  (analysisDays allProjects today).foldl
    (fun s t => processDay salaries allEmployees allProjects today t s) s0

/-! ## Report assembler -/

/-- `toCents`: `Math.round(Number(value) * 100)` — round half toward positive
infinity. -/
def toCents (v : ℚ) : Int := ⌊v * 100 + 1 / 2⌋

/-- `totalCost` of `getAllProjects`: budget plus extension budgets, summed in
integer cents and converted back (`((baseCents + extensionCents) / 100)`). -/
def computeTotalCost (budget : ℚ) (extensions : List Extension) : ℚ :=
  let baseCents := toCents budget
  let extensionCents := extensions.foldl
    (fun sum ext => sum + toCents (ext.extendedBudget.getD 0)) 0
  ((baseCents + extensionCents : Int) : ℚ) / 100

/-- `getProjectEmployees`: only currently assigned employees
(`isNull(unassignedAt)`); this is the `assignedEmployees` list of a
`ProjectWithDetails`. -/
def assignedEmployeesOf (project : Project) : List Employee :=
  (project.assignments.filter (fun r => r.unassignedAt.isNone)).map (fun r => r.employee)

/-- One entry of the per-employee analysis of `calculateProjectProfitLoss`. -/
structure EmpAnalysis where
  employeeId : String
  employeeName : String
  totalSalaryCost : ℚ
  projectsWorked : Nat
  revenueGenerated : ℚ
  profitContribution : ℚ
  utilizationRate : ℚ
deriving DecidableEq, Repr

/-- The "Initialize employee analysis map" loop: salary cost from the engine's
employee-cost map, utilization rate from the engine's counters
(`workingDays / totalDaysInAnalysis * 100`, 0 when the denominator is 0). -/
def initEmployeeAnalysis (allEmployees : List Employee)
    (employeeCosts : List (String × ℚ)) (util : List (String × Util)) :
    List (String × EmpAnalysis) :=
  allEmployees.foldl
    (fun m e =>
      let utilizationRate :=
        match mget util e.id with
        | some u =>
          if u.totalDaysInAnalysis > 0 then
            ((u.workingDays : ℚ) / (u.totalDaysInAnalysis : ℚ)) * 100
          else 0
        | none => 0
      mset m e.id
        { employeeId := e.id
          employeeName := e.name
          totalSalaryCost := (mget employeeCosts e.id).getD 0
          projectsWorked := 0
          revenueGenerated := 0
          profitContribution := 0
          utilizationRate := utilizationRate })
    []

/-- The per-project "Update employee analysis with revenue attribution" step:
split the project's revenue evenly across its currently assigned employees. -/
def attributeRevenue (m : List (String × EmpAnalysis)) (project : Project) :
    List (String × EmpAnalysis) :=
  let employees := assignedEmployeesOf project
  if employees.length > 0 then
    let revenue := computeTotalCost project.budget project.extensions
    let revenuePerEmployee := revenue / (employees.length : ℚ)
    employees.foldl
      (fun m e =>
        match mget m e.id with
        | some a =>
          mset m e.id
            { a with
              projectsWorked := a.projectsWorked + 1
              revenueGenerated := a.revenueGenerated + revenuePerEmployee }
        | none => m)
      m
  else m

/-- The "Finalize employee analysis" map:
`profitContribution = revenueGenerated - totalSalaryCost`. -/
def finalizeEmp (a : EmpAnalysis) : EmpAnalysis :=
  { a with profitContribution := a.revenueGenerated - a.totalSalaryCost }

/-- The per-employee analysis portion of `calculateProjectProfitLoss`, given the
engine's accumulated employee costs and utilization counters. -/
def employeeAnalysisOf (allProjects : List Project) (allEmployees : List Employee)
    (employeeCosts : List (String × ℚ)) (util : List (String × Util)) :
    List EmpAnalysis :=
  let m := initEmployeeAnalysis allEmployees employeeCosts util
  let m := allProjects.foldl attributeRevenue m
  m.map (fun p => finalizeEmp p.2)

/-- `calculateProjectProfitLoss` restricted to its employee analysis: run the
engine, then assemble the per-employee report entries. -/
def profitLossEmployeeAnalysis (allProjects : List Project) (allEmployees : List Employee)
    (salaries : List SalaryRecord) (today : Int) : List EmpAnalysis :=
  let r := calculateDateDrivenCosts allProjects allEmployees salaries today
  employeeAnalysisOf allProjects allEmployees r.employeeCosts r.employeeUtilization

/-- One day of the financial-year activity check in the breakdown loop: the day
counts iff its financial year is the one under consideration and the project is
not on hold that day. -/
def dayCountsForFYActivity (project : Project) (fy : String) (t : Int) : Bool :=
  decide (getFinancialYearForDate t = fy) && !(isProjectOnHoldOnDate project.statusHistory t)

/-- The days the breakdown loop walks for one project: project start through
`min(effective end, today)`. -/
def projectDaysUpTo (project : Project) (today : Int) : List Int :=
  let startDate := project.startDate
  let endDate := getProjectEffectiveEndDate project
  let analysisEndDate := if endDate > today then today else endDate
  (List.range (numDays startDate analysisEndDate)).map
    (fun i => startDate + msPerDay * i)

/-- `hasActivityInFY`: the project has some non-hold day in the financial year
(the source's `while`-with-`break` is an existence check over the walked days). -/
def hasActivityInFY (project : Project) (fy : String) (today : Int) : Bool :=
  (projectDaysUpTo project today).any (fun t => dayCountsForFYActivity project fy t)

/-! ## Specification-side definitions (for refinement comparisons only) -/

/-- Modelled from the spec's words, for comparison with `filterAssignedToday`
(claim C5): an employee is active on project P at instant T iff
`assigned-at ≤ T` and (`unassigned-at` is absent or `unassigned-at > T`);
over the UTC day-wide half-open interval `[day-start, next-day-start)` this is
overlap of the half-open interval `[assigned-at, unassigned-at-or-infinity)`
with the day interval, with `unassigned-at` exclusive. -/
def specAssignmentActive (r : AssignmentRecord) (t : Int) : Bool :=
  decide (r.assignedAt < dayEnd t) &&
    (match r.unassignedAt with
     | none => true
     | some u => decide (dayStart t < u))

/-- The number of active `(project, employee)` pairs a given employee id
contributes to one day's `activeProjectsToday` structure (specification helper
for the utilization claims). -/
def occCount : List (String × Project × List Employee) → String → Nat
  | [], _ => 0
  | en :: rest, k =>
    (en.2.2.filter (fun e => decide (e.id = k))).length + occCount rest k

/-! ## Claim C2: effective-end-date priority -/

theorem sortDescBy_nil {α : Type} (key : α → Int) : sortDescBy key ([] : List α) = [] := rfl

theorem effectiveEnd_actual_branch (p : Project) (d : Int)
    (h : ∃ e ∈ p.extensions, e.actualCompletionDate = some d) :
    (∃ e ∈ p.extensions, e.actualCompletionDate = some (getProjectEffectiveEndDate p)) ∧
      d ≤ getProjectEffectiveEndDate p := by
  obtain ⟨e0, he0, he0d⟩ := h
  have he0L : e0 ∈ p.extensions.filter (fun e => e.actualCompletionDate.isSome) :=
    List.mem_filter.mpr ⟨he0, by simp [he0d]⟩
  cases hsort : sortDescBy (fun e => e.actualCompletionDate.getD 0)
      (p.extensions.filter (fun e => e.actualCompletionDate.isSome)) with
  | nil =>
    exfalso
    have := sortDescBy_eq_nil _ _ hsort
    rw [this] at he0L
    simp at he0L
  | cons h1 t1 =>
    obtain ⟨hmem, hmax⟩ := sortDescBy_head_max _ _ _ _ hsort
    have h1ext := List.mem_filter.mp hmem
    obtain ⟨dv, hdv⟩ := Option.isSome_iff_exists.mp h1ext.2
    have hres : getProjectEffectiveEndDate p = h1.actualCompletionDate.getD 0 := by
      unfold getProjectEffectiveEndDate
      rw [hsort]
    constructor
    · exact ⟨h1, h1ext.1, by rw [hres, hdv]; rfl⟩
    · have := hmax e0 he0L
      rw [hres]
      simpa [he0d] using this

theorem effectiveEnd_newEnd_branch (p : Project) (d : Int)
    (hnoact : ∀ e ∈ p.extensions, e.actualCompletionDate = none)
    (h : ∃ e ∈ p.extensions, e.newEndDate = some d) :
    (∃ e ∈ p.extensions, e.newEndDate = some (getProjectEffectiveEndDate p)) ∧
      d ≤ getProjectEffectiveEndDate p := by
  have hfilA : p.extensions.filter (fun e => e.actualCompletionDate.isSome) = [] :=
    List.filter_eq_nil_iff.mpr (fun e he => by simp [hnoact e he])
  obtain ⟨e0, he0, he0d⟩ := h
  have he0L : e0 ∈ p.extensions.filter (fun e => e.newEndDate.isSome) :=
    List.mem_filter.mpr ⟨he0, by simp [he0d]⟩
  cases hsort : sortDescBy (fun e => e.newEndDate.getD 0)
      (p.extensions.filter (fun e => e.newEndDate.isSome)) with
  | nil =>
    exfalso
    have := sortDescBy_eq_nil _ _ hsort
    rw [this] at he0L
    simp at he0L
  | cons h1 t1 =>
    obtain ⟨hmem, hmax⟩ := sortDescBy_head_max _ _ _ _ hsort
    have h1ext := List.mem_filter.mp hmem
    obtain ⟨dv, hdv⟩ := Option.isSome_iff_exists.mp h1ext.2
    have hres : getProjectEffectiveEndDate p = h1.newEndDate.getD 0 := by
      unfold getProjectEffectiveEndDate
      rw [hfilA, sortDescBy_nil]
      simp only [hsort]
    constructor
    · exact ⟨h1, h1ext.1, by rw [hres, hdv]; rfl⟩
    · have := hmax e0 he0L
      rw [hres]
      simpa [he0d] using this

theorem effectiveEnd_fallback_branch (p : Project)
    (hnoact : ∀ e ∈ p.extensions, e.actualCompletionDate = none)
    (hnonew : ∀ e ∈ p.extensions, e.newEndDate = none) :
    getProjectEffectiveEndDate p =
      (match p.completionDate with | some c => c | none => p.endDate) := by
  have hfilA : p.extensions.filter (fun e => e.actualCompletionDate.isSome) = [] :=
    List.filter_eq_nil_iff.mpr (fun e he => by simp [hnoact e he])
  have hfilN : p.extensions.filter (fun e => e.newEndDate.isSome) = [] :=
    List.filter_eq_nil_iff.mpr (fun e he => by simp [hnonew e he])
  unfold getProjectEffectiveEndDate
  rw [hfilA, hfilN]
  rfl

/-- C2: the effective end date of a project is resolved by strict priority —
the maximum `actualCompletionDate` among extensions that set one; otherwise the
maximum `newEndDate` among extensions that set one; otherwise the recorded
`completionDate`; otherwise the scheduled `endDate`. -/
theorem claim2_effective_end_date_priority :
    (∀ (p : Project) (d : Int), (∃ e ∈ p.extensions, e.actualCompletionDate = some d) →
      (∃ e ∈ p.extensions, e.actualCompletionDate = some (getProjectEffectiveEndDate p)) ∧
        d ≤ getProjectEffectiveEndDate p) ∧
    (∀ (p : Project) (d : Int), (∀ e ∈ p.extensions, e.actualCompletionDate = none) →
      (∃ e ∈ p.extensions, e.newEndDate = some d) →
      (∃ e ∈ p.extensions, e.newEndDate = some (getProjectEffectiveEndDate p)) ∧
        d ≤ getProjectEffectiveEndDate p) ∧
    (∀ (p : Project) (c : Int), (∀ e ∈ p.extensions, e.actualCompletionDate = none) →
      (∀ e ∈ p.extensions, e.newEndDate = none) → p.completionDate = some c →
      getProjectEffectiveEndDate p = c) ∧
    (∀ (p : Project), (∀ e ∈ p.extensions, e.actualCompletionDate = none) →
      (∀ e ∈ p.extensions, e.newEndDate = none) → p.completionDate = none →
      getProjectEffectiveEndDate p = p.endDate) := by
  refine ⟨effectiveEnd_actual_branch, effectiveEnd_newEnd_branch, ?_, ?_⟩
  · intro p c hnoact hnonew hc
    rw [effectiveEnd_fallback_branch p hnoact hnonew, hc]
  · intro p hnoact hnonew hc
    rw [effectiveEnd_fallback_branch p hnoact hnonew, hc]

/-- A project with all four dates present and distinct: scheduled end day 100,
recorded completion day 200, extension new end day 300, extension actual
completion day 400. -/
def allFourProject : Project :=
  ⟨"w2", "W2", 0, 8640000000, some 17280000000, 0, "completed",
    [⟨some 25920000000, none, some 34560000000⟩], [], []⟩

/-- C2 witness: with all four dates set to distinct values, the extension
actual-completion date (day 400) wins. -/
theorem claim2_effective_end_date_priority_witness :
    getProjectEffectiveEndDate allFourProject = 34560000000 ∧
      (∃ e ∈ allFourProject.extensions,
        e.actualCompletionDate = some (getProjectEffectiveEndDate allFourProject)) ∧
      (34560000000 : Int) ≤ getProjectEffectiveEndDate allFourProject := by
  refine ⟨by with_unfolding_all rfl, ?_⟩
  exact claim2_effective_end_date_priority.1 allFourProject 34560000000 (by decide)

/-! ## Claim C7: salary resolution is total, with legacy/zero fallback -/

theorem mem_salaryRecordsForFY (salaries : List SalaryRecord) (employeeId fyLabel : String)
    (r : SalaryRecord) (h : r ∈ salaryRecordsForFY salaries employeeId fyLabel) :
    r ∈ salaries ∧ r.employeeId = employeeId := by
  rw [salaryRecordsForFY, mem_sortDescBy] at h
  have := List.mem_filter.mp h
  refine ⟨this.1, ?_⟩
  have h2 := this.2
  simp only [Bool.and_eq_true, decide_eq_true_eq] at h2
  exact h2.1

theorem mem_salaryRecordsAny (salaries : List SalaryRecord) (employeeId : String)
    (r : SalaryRecord) (h : r ∈ salaryRecordsAny salaries employeeId) :
    r ∈ salaries ∧ r.employeeId = employeeId := by
  rw [salaryRecordsAny, mem_sortDescBy] at h
  have := List.mem_filter.mp h
  exact ⟨this.1, by simpa using this.2⟩

/-- C7: salary resolution is total and never errors — when no salary record of
the employee is effective on or before the date (whichever label tier is
selected), the legacy flat salary field applies, and 0 when that is absent too;
and a non-positive resolved salary makes the cost-distribution step skip the
`(project, employee)` pair entirely, leaving the accumulator state unchanged. -/
theorem claim7_salary_resolution_total_with_fallback :
    (∀ (salaries : List SalaryRecord) (employees : List Employee)
        (employeeId : String) (t : Int),
      (∀ r ∈ salaries, r.employeeId = employeeId → t < r.effectiveFrom) →
      getEmployeeSalaryOnDate salaries employees employeeId t =
        ((getEmployee employees employeeId).bind Employee.salary).getD 0) ∧
    (∀ (salaries : List SalaryRecord) (employees : List Employee)
        (counts : List (String × Nat)) (t : Int) (projectId : String)
        (e : Employee) (s : CostState),
      getEmployeeSalaryOnDate salaries employees e.id t ≤ 0 →
      applyPair salaries employees counts t projectId e s = s) := by
  constructor
  · intro salaries employees employeeId t hall
    have hnone :
        ∀ (l : List SalaryRecord), (∀ r ∈ l, r ∈ salaries ∧ r.employeeId = employeeId) →
          l.find? (fun r => decide (r.effectiveFrom ≤ t)) = none := by
      intro l hl
      rw [List.find?_eq_none]
      intro r hr
      have := hall r (hl r hr).1 (hl r hr).2
      simp only [decide_eq_true_eq]
      omega
    rw [getEmployeeSalaryOnDate]
    have hfind :
        (if (if (salaryRecordsForFY salaries employeeId
                  (getFinancialYearForDate t)).isEmpty then
              salaryRecordsForFY salaries employeeId
                ("FY " ++ getFinancialYearForDate t)
            else salaryRecordsForFY salaries employeeId
                (getFinancialYearForDate t)).isEmpty then
          salaryRecordsAny salaries employeeId
        else
          (if (salaryRecordsForFY salaries employeeId
                  (getFinancialYearForDate t)).isEmpty then
            salaryRecordsForFY salaries employeeId
              ("FY " ++ getFinancialYearForDate t)
          else salaryRecordsForFY salaries employeeId
              (getFinancialYearForDate t))).find?
          (fun r => decide (r.effectiveFrom ≤ t)) = none := by
      split
      all_goals try split
      all_goals
        first
          | exact hnone _ (fun r hr => mem_salaryRecordsAny salaries employeeId r hr)
          | exact hnone _ (fun r hr => mem_salaryRecordsForFY salaries employeeId _ r hr)
    rw [hfind]
    cases hbind : (getEmployee employees employeeId).bind Employee.salary with
    | none => rfl
    | some s => rfl
  · intro salaries employees counts t projectId e s h
    rw [applyPair, if_pos h]

/-- C7 witness: an employee whose only salary record starts in the future falls
back to the legacy flat salary; a zero-salary employee's pair is skipped. -/
theorem claim7_salary_resolution_total_with_fallback_witness :
    (∀ r ∈ [(⟨"e9", "2024-25", 999, 1000⟩ : SalaryRecord)],
        r.employeeId = "e9" → (0 : Int) < r.effectiveFrom) ∧
    getEmployeeSalaryOnDate [⟨"e9", "2024-25", 999, 1000⟩]
        [⟨"e9", "Bea", some 500⟩] "e9" 0 = 500 ∧
    applyPair [] [] [] 0 "p9" ⟨"e9", "Bea", none⟩ ⟨[], [], [], []⟩ = ⟨[], [], [], []⟩ := by
  refine ⟨by decide, ?_, ?_⟩
  · have h := claim7_salary_resolution_total_with_fallback.1
      [⟨"e9", "2024-25", 999, 1000⟩] [⟨"e9", "Bea", some 500⟩] "e9" 0 (by decide)
    rw [h]
    with_unfolding_all rfl
  · have hz : getEmployeeSalaryOnDate [] [] (Employee.id ⟨"e9", "Bea", none⟩) 0 = 0 := by
      with_unfolding_all rfl
    exact claim7_salary_resolution_total_with_fallback.2 [] [] [] 0 "p9"
      ⟨"e9", "Bea", none⟩ ⟨[], [], [], []⟩ (by rw [hz])

/-! ## Claim C1: per-pair prorated daily cost -/

theorem getCountOr1_eq (counts : List (String × Nat)) (k : String) (n : Nat)
    (h : mget counts k = some n) (hn : 0 < n) : getCountOr1 counts k = n := by
  rw [getCountOr1, h]
  simp [Nat.pos_iff_ne_zero.mp hn]

/-- C1: for every `(project, employee)` pair processed by the cost-distribution
step of a day (the employee having `k > 0` simultaneous active projects counted
that day and a positive resolved annual salary), the amount added to the
project's cost — and to the employee's and the day's financial-year totals — is
exactly `annualSalary / 365 / k`. -/
theorem claim1_prorated_daily_cost :
    ∀ (salaries : List SalaryRecord) (employees : List Employee)
      (counts : List (String × Nat)) (t : Int) (projectId : String)
      (e : Employee) (s : CostState) (k : Nat),
      mget counts e.id = some k → 0 < k →
      0 < getEmployeeSalaryOnDate salaries employees e.id t →
      ((mget (applyPair salaries employees counts t projectId e s).projectCosts
          projectId).getD 0 =
        (mget s.projectCosts projectId).getD 0 +
          getEmployeeSalaryOnDate salaries employees e.id t / 365 / (k : ℚ)) ∧
      ((mget (applyPair salaries employees counts t projectId e s).employeeCosts
          e.id).getD 0 =
        (mget s.employeeCosts e.id).getD 0 +
          getEmployeeSalaryOnDate salaries employees e.id t / 365 / (k : ℚ)) ∧
      ((mget (applyPair salaries employees counts t projectId e s).financialYearCosts
          (getFinancialYearForDate t)).getD 0 =
        (mget s.financialYearCosts (getFinancialYearForDate t)).getD 0 +
          getEmployeeSalaryOnDate salaries employees e.id t / 365 / (k : ℚ)) := by
  intro salaries employees counts t projectId e s k hk hkpos hsal
  have hnle : ¬ getEmployeeSalaryOnDate salaries employees e.id t ≤ 0 := not_le.mpr hsal
  rw [applyPair, if_neg hnle]
  rw [getCountOr1_eq counts e.id k hk hkpos]
  refine ⟨?_, ?_, ?_⟩
  · rw [mget_mset_self]
    rfl
  · rw [mget_mset_self]
    rfl
  · rw [mget_mset_self]
    rfl

/-- C1 witness: annual salary 365000 on two simultaneously active projects —
the pair adds exactly 500 to the project's, the employee's and the day's
financial-year totals. -/
theorem claim1_prorated_daily_cost_witness :
    mget [("e1", 2)] "e1" = some 2 ∧
    (mget (applyPair [] [⟨"e1", "A", some 365000⟩] [("e1", 2)] 0 "p1"
        ⟨"e1", "A", some 365000⟩ ⟨[], [], [], []⟩).projectCosts "p1").getD 0 = 500 ∧
    (mget (applyPair [] [⟨"e1", "A", some 365000⟩] [("e1", 2)] 0 "p1"
        ⟨"e1", "A", some 365000⟩ ⟨[], [], [], []⟩).employeeCosts "e1").getD 0 = 500 ∧
    (mget (applyPair [] [⟨"e1", "A", some 365000⟩] [("e1", 2)] 0 "p1"
        ⟨"e1", "A", some 365000⟩ ⟨[], [], [], []⟩).financialYearCosts
        (getFinancialYearForDate 0)).getD 0 = 500 := by
  have hsal : getEmployeeSalaryOnDate [] [⟨"e1", "A", some 365000⟩] "e1" 0 = 365000 := by
    with_unfolding_all rfl
  have h := claim1_prorated_daily_cost [] [⟨"e1", "A", some 365000⟩] [("e1", 2)] 0 "p1"
    ⟨"e1", "A", some 365000⟩ ⟨[], [], [], []⟩ 2 (by decide) (by decide)
    (by rw [show Employee.id ⟨"e1", "A", some 365000⟩ = "e1" from rfl, hsal]; norm_num)
  rw [show Employee.id ⟨"e1", "A", some 365000⟩ = "e1" from rfl, hsal] at h
  refine ⟨by decide, ?_, ?_, ?_⟩
  · rw [h.1]
    norm_num [mget]
  · rw [h.2.1]
    norm_num [mget]
  · rw [h.2.2]
    norm_num [mget]

/-! ## Claim C8: revenue is budget plus extension budgets, exact to the cent -/

theorem toCents_exact (n : ℤ) : toCents ((n : ℚ) / 100) = n := by
  rw [toCents]
  have h1 : ((n : ℚ) / 100) * 100 = (n : ℚ) := by
    field_simp
  rw [h1, Int.floor_int_add]
  norm_num

theorem foldl_toCents_exact (l : List Extension) (acc : ℤ)
    (h : ∀ e ∈ l, ∃ n : ℤ, e.extendedBudget.getD 0 = (n : ℚ) / 100) :
    ((l.foldl (fun sum ext => sum + toCents (ext.extendedBudget.getD 0)) acc : ℤ) : ℚ) / 100 =
      (acc : ℚ) / 100 + (l.map (fun e => e.extendedBudget.getD 0)).sum := by
  induction l generalizing acc with
  | nil => simp
  | cons e l ih =>
    obtain ⟨n, hn⟩ := h e (by simp)
    have hrest : ∀ x ∈ l, ∃ m : ℤ, x.extendedBudget.getD 0 = (m : ℚ) / 100 :=
      fun x hx => h x (List.mem_cons_of_mem e hx)
    simp only [List.foldl_cons, List.map_cons, List.sum_cons]
    rw [hn, toCents_exact, ih (acc + n) hrest]
    push_cast
    ring

/-- C8: the reported total cost (revenue) of a project equals its budget plus
the sum of its extensions' extended budgets whenever all inputs are whole
numbers of cents — the computation goes through integer cents; on budget
100000.00 with extensions 2500.50 and 1999.99 it yields exactly 104500.49. -/
theorem claim8_total_cost_integer_cents :
    (∀ (budget : ℚ) (extensions : List Extension),
      (∃ n : ℤ, budget = (n : ℚ) / 100) →
      (∀ e ∈ extensions, ∃ n : ℤ, e.extendedBudget.getD 0 = (n : ℚ) / 100) →
      computeTotalCost budget extensions =
        budget + (extensions.map (fun e => e.extendedBudget.getD 0)).sum) ∧
    computeTotalCost 100000
        [⟨none, some (2500.50 : ℚ), none⟩, ⟨none, some (1999.99 : ℚ), none⟩] =
      (104500.49 : ℚ) := by
  constructor
  · intro budget extensions hb hexts
    obtain ⟨n, hn⟩ := hb
    rw [computeTotalCost]
    push_cast
    rw [add_div, foldl_toCents_exact extensions 0 hexts]
    rw [hn, toCents_exact]
    push_cast
    ring
  · with_unfolding_all rfl

/-- C8 witness: the hypotheses hold at the spec's example inputs, and the
general theorem applied there agrees with the concrete 104500.49 result. -/
theorem claim8_total_cost_integer_cents_witness :
    computeTotalCost 100000
        [⟨none, some (2500.50 : ℚ), none⟩, ⟨none, some (1999.99 : ℚ), none⟩] =
      (100000 : ℚ) +
        ([(⟨none, some (2500.50 : ℚ), none⟩ : Extension),
          ⟨none, some (1999.99 : ℚ), none⟩].map (fun e => e.extendedBudget.getD 0)).sum := by
  exact claim8_total_cost_integer_cents.1 100000
    [⟨none, some (2500.50 : ℚ), none⟩, ⟨none, some (1999.99 : ℚ), none⟩]
    ⟨10000000, by norm_num⟩
    (by
      intro e he
      rcases List.mem_cons.mp he with rfl | he
      · exact ⟨250050, by norm_num⟩
      · rcases List.mem_cons.mp he with rfl | he
        · exact ⟨199999, by norm_num⟩
        · simp at he)

/-! ## Claim C5: day-overlap semantics of assignment records -/

/-- An assignment record unassigned exactly at the start instant of day 101
(days 100..101 in milliseconds). -/
def boundaryRecord : AssignmentRecord :=
  ⟨"e1", ⟨"e1", "A", some 365⟩, 8640000000, some 8726400000⟩

/-- C5 counterexample: the engine's day filter keeps a record whose
`unassignedAt` equals the day's start instant, although under the spec's
exclusive half-open-interval overlap the employee is not active on that day —
so the counted set is not the spec's set. -/
theorem claim5_unassigned_boundary_counterexample :
    filterAssignedToday [boundaryRecord] 8726400000 = [boundaryRecord] ∧
      specAssignmentActive boundaryRecord 8726400000 = false := by
  exact ⟨by with_unfolding_all rfl, by with_unfolding_all rfl⟩

/-- C5 (amended): the set of employees counted as assigned on a target day is
exactly the records with `assignedAt` before the next day's start and
`unassignedAt` absent or at-or-after the day's start — i.e. the half-open
overlap check with the `unassignedAt` comparison made inclusive, so a record
unassigned exactly at the day's start instant still counts as active. -/
theorem claim5_assignment_day_overlap_amended :
    ∀ (records : List AssignmentRecord) (t : Int) (r : AssignmentRecord),
      r ∈ filterAssignedToday records t ↔
        r ∈ records ∧ r.assignedAt < dayEnd t ∧
          (r.unassignedAt = none ∨ ∃ u, r.unassignedAt = some u ∧ dayStart t ≤ u) := by
  intro records t r
  cases hu : r.unassignedAt with
  | none => simp [filterAssignedToday, List.mem_filter, hu]
  | some u => simp [filterAssignedToday, List.mem_filter, hu]

/-- C5 witness: the amended membership characterization evaluated at the
boundary record — it is in the filtered set, and the inclusive condition holds
with `unassignedAt` exactly at the day start. -/
theorem claim5_assignment_day_overlap_amended_witness :
    boundaryRecord ∈ filterAssignedToday [boundaryRecord] 8726400000 := by
  rw [claim5_assignment_day_overlap_amended [boundaryRecord] 8726400000 boundaryRecord]
  refine ⟨by simp, by decide, Or.inr ⟨8726400000, by decide, by decide⟩⟩

/-! ## Claim C4: on-hold days attract no cost and no financial-year activity -/

theorem activeStep_mem (t today : Int) (acc : List (String × Project × List Employee))
    (project : Project) (en : String × Project × List Employee)
    (h : en ∈ activeStep t today acc project) :
    en ∈ acc ∨
      (en.1 = project.id ∧
        isProjectOnHoldOnDate project.statusHistory t = false) := by
  simp only [activeStep] at h
  by_cases hw : project.startDate ≤ t ∧
      t ≤ (if getProjectEffectiveEndDate project > today then today
           else getProjectEffectiveEndDate project)
  · rw [if_pos hw] at h
    cases hhold : isProjectOnHoldOnDate project.statusHistory t with
    | true =>
      rw [if_pos (by rw [hhold])] at h
      exact Or.inl h
    | false =>
      rw [if_neg (by rw [hhold]; simp)] at h
      split at h
      · exact Or.inl h
      · rcases mem_mset _ _ _ _ h with rfl | hacc
        · exact Or.inr ⟨rfl, rfl⟩
        · exact Or.inl hacc
  · rw [if_neg hw] at h
    exact Or.inl h

theorem buildActiveToday_mem (allProjects : List Project) (t today : Int)
    (en : String × Project × List Employee)
    (h : en ∈ buildActiveToday allProjects t today) :
    ∃ q ∈ allProjects, en.1 = q.id ∧
      isProjectOnHoldOnDate q.statusHistory t = false := by
  rw [buildActiveToday] at h
  suffices hgen : ∀ (ps : List Project) (acc : List (String × Project × List Employee)),
      en ∈ ps.foldl (activeStep t today) acc →
      en ∈ acc ∨ ∃ q ∈ ps, en.1 = q.id ∧
        isProjectOnHoldOnDate q.statusHistory t = false by
    rcases hgen allProjects [] h with hin | hq
    · simp at hin
    · exact hq
  intro ps
  induction ps with
  | nil => intro acc h; exact Or.inl h
  | cons p rest ih =>
    intro acc h
    rw [List.foldl_cons] at h
    rcases ih (activeStep t today acc p) h with hin | hq
    · rcases activeStep_mem t today acc p en hin with hacc | hp
      · exact Or.inl hacc
      · exact Or.inr ⟨p, by simp, hp.1, hp.2⟩
    · obtain ⟨q, hq1, hq2⟩ := hq
      exact Or.inr ⟨q, List.mem_cons_of_mem p hq1, hq2⟩

theorem applyPair_projectCosts_other (salaries : List SalaryRecord)
    (employees : List Employee) (counts : List (String × Nat)) (t : Int)
    (projectId pid : String) (e : Employee) (s : CostState) (hne : pid ≠ projectId) :
    mget (applyPair salaries employees counts t projectId e s).projectCosts pid =
      mget s.projectCosts pid := by
  rw [applyPair]
  split
  · rfl
  · exact mget_mset_ne _ _ _ _ hne

theorem distributeDay_projectCosts_other (salaries : List SalaryRecord)
    (employees : List Employee) (counts : List (String × Nat)) (t : Int)
    (active : List (String × Project × List Employee)) (s : CostState) (pid : String)
    (h : ∀ en ∈ active, en.1 ≠ pid) :
    mget (distributeDay salaries employees counts t active s).projectCosts pid =
      mget s.projectCosts pid := by
  induction active generalizing s with
  | nil => rfl
  | cons en rest ih =>
    rw [distributeDay, List.foldl_cons]
    have hinner : ∀ (emps : List Employee) (s : CostState),
        mget (emps.foldl (fun s e => applyPair salaries employees counts t en.1 e s) s).projectCosts pid =
          mget s.projectCosts pid := by
      intro emps
      induction emps with
      | nil => intro s; rfl
      | cons e erest ihe =>
        intro s
        rw [List.foldl_cons, ihe,
          applyPair_projectCosts_other salaries employees counts t en.1 pid e s
            (by intro hc; exact h en (by simp) hc.symm)]
    rw [show (List.foldl
        (fun s en => en.2.2.foldl (fun s e => applyPair salaries employees counts t en.1 e s) s)
        (en.2.2.foldl (fun s e => applyPair salaries employees counts t en.1 e s) s) rest)
      = distributeDay salaries employees counts t rest
          (en.2.2.foldl (fun s e => applyPair salaries employees counts t en.1 e s) s) from rfl]
    rw [ih _ (fun x hx => h x (List.mem_cons_of_mem en hx)), hinner]

/-- C4: on a day on which a project is flagged on hold by its status-change
history, the day's processing adds no cost to that project (its entry in the
project-cost map is untouched), and the day fails the financial-year
revenue-activity check for that project. -/
theorem claim4_on_hold_day_excluded :
    (∀ (salaries : List SalaryRecord) (allEmployees : List Employee)
        (allProjects : List Project) (today t : Int) (s : CostState) (pid : String),
      (∀ q ∈ allProjects, q.id = pid → isProjectOnHoldOnDate q.statusHistory t = true) →
      mget (processDay salaries allEmployees allProjects today t s).projectCosts pid =
        mget s.projectCosts pid) ∧
    (∀ (p : Project) (fy : String) (t : Int),
      isProjectOnHoldOnDate p.statusHistory t = true →
      dayCountsForFYActivity p fy t = false) := by
  constructor
  · intro salaries allEmployees allProjects today t s pid hhold
    rw [processDay]
    have hne : ∀ en ∈ buildActiveToday allProjects t today, en.1 ≠ pid := by
      intro en hen hcon
      obtain ⟨q, hq, hqid, hqhold⟩ := buildActiveToday_mem allProjects t today en hen
      have := hhold q hq (hqid ▸ hcon)
      rw [this] at hqhold
      exact Bool.true_eq_false ▸ hqhold
    exact distributeDay_projectCosts_other salaries allEmployees _ t _ s pid hne
  · intro p fy t h
    rw [dayCountsForFYActivity, h]
    simp

/-- A project put on hold at instant 0 and never resumed. -/
def heldProject : Project :=
  ⟨"ph", "PH", 0, 17280000000, none, 1000, "on-hold", [],
    [⟨"on-hold", 0⟩], [⟨"e1", ⟨"e1", "A", some 365⟩, 0, none⟩]⟩

/-- C4 witness: the held project is on hold on day 100; processing that day
leaves its (absent) project-cost entry untouched and the day fails the
financial-year activity check. -/
theorem claim4_on_hold_day_excluded_witness :
    isProjectOnHoldOnDate heldProject.statusHistory 8640000000 = true ∧
    mget (processDay [] [] [heldProject] 25920000000 8640000000
        ⟨[], [], [], []⟩).projectCosts "ph" = none ∧
    dayCountsForFYActivity heldProject "1970-71" 8640000000 = false := by
  refine ⟨by with_unfolding_all decide, ?_, ?_⟩
  · rw [claim4_on_hold_day_excluded.1 [] [] [heldProject] 25920000000 8640000000
      ⟨[], [], [], []⟩ "ph" (by with_unfolding_all decide)]
    rfl
  · exact claim4_on_hold_day_excluded.2 heldProject "1970-71" 8640000000
      (by with_unfolding_all decide)

/-! ## Claim C6: assignments recorded after the project's effective end -/

/-- A completed project (days 100..102) whose only assignment record was
entered retroactively on day 120, after the effective end date. -/
def retroProject : Project :=
  ⟨"p6", "P6", 8640000000, 8812800000, none, 1000, "completed", [], [],
    [⟨"e1", ⟨"e1", "A", some 365⟩, 10368000000, none⟩]⟩

/-- C6 counterexample: the record's `assignedAt` (day 120) is after the
project's resolved effective end date (day 102), yet the date-driven engine —
which matches raw assignment records against each day and never applies
`getEmployeeAssignmentPeriod` — attributes no cost at all to the project or the
employee, so the employee IS effectively excluded, contrary to the claim. -/
theorem claim6_retroactive_assignment_counterexample :
    getProjectEffectiveEndDate retroProject = 8812800000 ∧
      (8812800000 : Int) < 10368000000 ∧
      (calculateDateDrivenCosts [retroProject] [⟨"e1", "A", some 365⟩] []
          25920000000).projectCosts = [] ∧
      (calculateDateDrivenCosts [retroProject] [⟨"e1", "A", some 365⟩] []
          25920000000).employeeCosts = [] := by
  refine ⟨by with_unfolding_all rfl, by decide,
    by with_unfolding_all rfl, by with_unfolding_all rfl⟩

/-- C6 (amended): the helper `getEmployeeAssignmentPeriod` does clamp the
effective start to the project's start date when every assignment record starts
after the project's end date; but the current engine's per-day record filter
only counts a record on days whose interval ends after `assignedAt`, so a
record assigned after the effective end contributes on no day of the project
window. -/
theorem claim6_assignment_clamp_amended :
    (∀ (records : List AssignmentRecord) (projectStartDate projectEndDate now : Int),
      records ≠ [] →
      (∀ r ∈ records, r.assignedAt > projectEndDate) →
      (getEmployeeAssignmentPeriod records projectStartDate projectEndDate now).1 =
        projectStartDate) ∧
    (∀ (records : List AssignmentRecord) (t : Int) (r : AssignmentRecord),
      r ∈ filterAssignedToday records t → r.assignedAt < dayEnd t) := by
  constructor
  · intro records ps pe now hne hall
    cases hsort : sortAscBy (fun r => r.assignedAt) records with
    | nil => exact absurd (sortAscBy_eq_nil _ _ hsort) hne
    | cons a rest =>
      have ha : a ∈ records := by
        rw [← mem_sortAscBy (fun r => r.assignedAt) records a, hsort]
        simp
      rw [getEmployeeAssignmentPeriod, hsort]
      simp only [List.head?_cons]
      rw [if_pos (hall a ha)]
  · intro records t r h
    have := (List.mem_filter.mp h).2
    simp only [Bool.and_eq_true, decide_eq_true_eq] at this
    exact this.1

/-- C6 witness: at the retro project's concrete data, the helper clamps the
period start to the project start (day 100), and the record is excluded from
day 100 of the project window. -/
theorem claim6_assignment_clamp_amended_witness :
    (getEmployeeAssignmentPeriod retroProject.assignments 8640000000 8812800000
        25920000000).1 = 8640000000 ∧
    ∀ r ∈ filterAssignedToday retroProject.assignments 8640000000,
      r.assignedAt < dayEnd 8640000000 := by
  constructor
  · exact claim6_assignment_clamp_amended.1 retroProject.assignments 8640000000
      8812800000 25920000000 (by decide) (by decide)
  · intro r hr
    exact claim6_assignment_clamp_amended.2 retroProject.assignments 8640000000 r hr

/-! ## Claim C9: the empty-project-set "failure" mode -/

/-- C9 counterexample: with an empty project set but one supplied employee, the
engine's returned utilization map is not empty — it holds a zeroed entry for
the employee — so "empty maps for ... employee utilization" is false. -/
theorem claim9_empty_projects_counterexample :
    (calculateDateDrivenCosts [] [⟨"e1", "A", none⟩] [] 0).employeeUtilization =
        [("e1", ⟨0, 0⟩)] ∧
      (calculateDateDrivenCosts [] [⟨"e1", "A", none⟩] [] 0).employeeUtilization ≠ [] := by
  have h : (calculateDateDrivenCosts [] [⟨"e1", "A", none⟩] [] 0).employeeUtilization =
      [("e1", ⟨0, 0⟩)] := by with_unfolding_all rfl
  exact ⟨h, by rw [h]; simp⟩

theorem mget_isSome_mset_of {α : Type} (m : List (String × α)) (k k' : String) (v : α)
    (h : (mget m k).isSome) : (mget (mset m k' v) k).isSome := by
  by_cases hk : k = k'
  · subst hk
    rw [mget_mset_self]
    rfl
  · rwa [mget_mset_ne m k' k v hk]

theorem initUtil_values (emps : List Employee) (acc : List (String × Util))
    (hacc : ∀ p ∈ acc, p.2 = (⟨0, 0⟩ : Util)) :
    ∀ p ∈ emps.foldl (fun m e => mset m e.id ⟨0, 0⟩) acc, p.2 = (⟨0, 0⟩ : Util) := by
  induction emps generalizing acc with
  | nil => exact hacc
  | cons e rest ih =>
    rw [List.foldl_cons]
    refine ih (mset acc e.id ⟨0, 0⟩) ?_
    intro p hp
    rcases mem_mset _ _ _ _ hp with rfl | hp
    · rfl
    · exact hacc p hp

theorem initUtil_present (emps : List Employee) (acc : List (String × Util))
    (e : Employee) (he : e ∈ emps ∨ (mget acc e.id).isSome) :
    (mget (emps.foldl (fun m e => mset m e.id ⟨0, 0⟩) acc) e.id).isSome := by
  induction emps generalizing acc with
  | nil =>
    rcases he with he | he
    · simp at he
    · exact he
  | cons e' rest ih =>
    rw [List.foldl_cons]
    rcases he with he | he
    · rcases List.mem_cons.mp he with rfl | he
      · exact ih _ (Or.inr (by rw [mget_mset_self]; rfl))
      · exact ih _ (Or.inl he)
    · exact ih _ (Or.inr (mget_isSome_mset_of acc e.id e'.id _ he))

/-- C9 (amended): with an empty project set the engine returns empty project-,
employee- and financial-year-cost maps, while the employee-utilization map
holds one zeroed entry (working days 0, total days 0) for every supplied
employee — non-empty whenever any employees are supplied. -/
theorem claim9_empty_projects_amended :
    ∀ (allEmployees : List Employee) (salaries : List SalaryRecord) (today : Int),
      (calculateDateDrivenCosts [] allEmployees salaries today).projectCosts = [] ∧
      (calculateDateDrivenCosts [] allEmployees salaries today).employeeCosts = [] ∧
      (calculateDateDrivenCosts [] allEmployees salaries today).financialYearCosts = [] ∧
      (∀ e ∈ allEmployees,
        mget (calculateDateDrivenCosts [] allEmployees salaries today).employeeUtilization
          e.id = some ⟨0, 0⟩) ∧
      (allEmployees ≠ [] →
        (calculateDateDrivenCosts [] allEmployees salaries today).employeeUtilization ≠ []) := by
  intro allEmployees salaries today
  have hres : calculateDateDrivenCosts [] allEmployees salaries today =
      ⟨[], [], [],
        allEmployees.foldl (fun m e => mset m e.id ⟨0, 0⟩) []⟩ := by
    rfl
  rw [hres]
  refine ⟨rfl, rfl, rfl, ?_, ?_⟩
  · intro e he
    have hsome := initUtil_present allEmployees [] e (Or.inl he)
    obtain ⟨v, hv⟩ := Option.isSome_iff_exists.mp hsome
    have hmem := mget_eq_some_mem _ _ _ hv
    have := initUtil_values allEmployees [] (by simp) (e.id, v) hmem
    simp only at this
    rw [hv, this]
  · intro hne hnil
    cases allEmployees with
    | nil => exact hne rfl
    | cons e rest =>
      have hsome := initUtil_present (e :: rest) [] e (Or.inl (by simp))
      have hnil' : (e :: rest).foldl
          (fun m e => mset m e.id (⟨0, 0⟩ : Util)) ([] : List (String × Util)) = [] := hnil
      rw [hnil'] at hsome
      simp [mget] at hsome

/-- C9 witness: at a concrete employee list, the cost maps are empty, the
utilization entry is zeroed and the utilization map is non-empty. -/
theorem claim9_empty_projects_amended_witness :
    (calculateDateDrivenCosts [] [⟨"e2", "B", none⟩] [] 0).projectCosts = [] ∧
      mget (calculateDateDrivenCosts [] [⟨"e2", "B", none⟩] [] 0).employeeUtilization "e2" =
        some ⟨0, 0⟩ ∧
      (calculateDateDrivenCosts [] [⟨"e2", "B", none⟩] [] 0).employeeUtilization ≠ [] := by
  have h := claim9_empty_projects_amended [⟨"e2", "B", none⟩] [] 0
  exact ⟨h.1, h.2.2.2.1 ⟨"e2", "B", none⟩ (by simp), h.2.2.2.2 (by simp)⟩

/-! ## Claim C10: revenue attribution only sees current assignments -/

/-- The entry-shape invariant of the employee-analysis map: every entry is
keyed by its own employee id. -/
def EAKeyed (m : List (String × EmpAnalysis)) : Prop :=
  ∀ q ∈ m, q.2.employeeId = q.1

theorem initEA_entry (allEmployees : List Employee) (employeeCosts : List (String × ℚ))
    (util : List (String × Util)) :
    ∀ q ∈ initEmployeeAnalysis allEmployees employeeCosts util,
      q.2.employeeId = q.1 ∧ q.2.projectsWorked = 0 ∧ q.2.revenueGenerated = 0 ∧
        q.2.totalSalaryCost = (mget employeeCosts q.1).getD 0 := by
  rw [initEmployeeAnalysis]
  suffices hgen : ∀ (emps : List Employee) (acc : List (String × EmpAnalysis)),
      (∀ q ∈ acc, q.2.employeeId = q.1 ∧ q.2.projectsWorked = 0 ∧
        q.2.revenueGenerated = 0 ∧ q.2.totalSalaryCost = (mget employeeCosts q.1).getD 0) →
      ∀ q ∈ emps.foldl (fun m e =>
          mset m e.id
            { employeeId := e.id
              employeeName := e.name
              totalSalaryCost := (mget employeeCosts e.id).getD 0
              projectsWorked := 0
              revenueGenerated := 0
              profitContribution := 0
              utilizationRate :=
                match mget util e.id with
                | some u =>
                  if u.totalDaysInAnalysis > 0 then
                    ((u.workingDays : ℚ) / (u.totalDaysInAnalysis : ℚ)) * 100
                  else 0
                | none => 0 }) acc,
        q.2.employeeId = q.1 ∧ q.2.projectsWorked = 0 ∧ q.2.revenueGenerated = 0 ∧
          q.2.totalSalaryCost = (mget employeeCosts q.1).getD 0 by
    exact hgen allEmployees [] (by simp)
  intro emps
  induction emps with
  | nil => intro acc hacc; exact hacc
  | cons e rest ih =>
    intro acc hacc
    rw [List.foldl_cons]
    refine ih _ ?_
    intro q hq
    rcases mem_mset _ _ _ _ hq with rfl | hq
    · exact ⟨rfl, rfl, rfl, rfl⟩
    · exact hacc q hq

theorem foldl_mset_keysNodup {α β : Type} (emps : List β) (key : β → String)
    (val : List (String × α) → β → α) :
    ∀ acc : List (String × α), KeysNodup acc →
      KeysNodup (emps.foldl (fun m e => mset m (key e) (val m e)) acc) := by
  induction emps with
  | nil => intro acc hacc; exact hacc
  | cons e rest ih =>
    intro acc hacc
    rw [List.foldl_cons]
    exact ih _ (keysNodup_mset _ _ _ hacc)

theorem initEA_keysNodup (allEmployees : List Employee)
    (employeeCosts : List (String × ℚ)) (util : List (String × Util)) :
    KeysNodup (initEmployeeAnalysis allEmployees employeeCosts util) := by
  rw [initEmployeeAnalysis]
  exact foldl_mset_keysNodup allEmployees (fun e => e.id)
    (fun _ e =>
      ({ employeeId := e.id
         employeeName := e.name
         totalSalaryCost := (mget employeeCosts e.id).getD 0
         projectsWorked := 0
         revenueGenerated := 0
         profitContribution := 0
         utilizationRate :=
           match mget util e.id with
           | some u =>
             if u.totalDaysInAnalysis > 0 then
               ((u.workingDays : ℚ) / (u.totalDaysInAnalysis : ℚ)) * 100
             else 0
           | none => 0 } : EmpAnalysis)) [] keysNodup_nil

theorem attributeRevenue_keysNodup (m : List (String × EmpAnalysis)) (p : Project)
    (h : KeysNodup m) : KeysNodup (attributeRevenue m p) := by
  rw [attributeRevenue]
  split
  · suffices hgen : ∀ (emps : List Employee) (m : List (String × EmpAnalysis)),
        KeysNodup m →
        KeysNodup (emps.foldl (fun m e =>
          match mget m e.id with
          | some a =>
            mset m e.id
              { a with
                projectsWorked := a.projectsWorked + 1
                revenueGenerated := a.revenueGenerated +
                  computeTotalCost p.budget p.extensions /
                    ((assignedEmployeesOf p).length : ℚ) }
          | none => m) m) by
      exact hgen _ m h
    intro emps
    induction emps with
    | nil => intro m h; exact h
    | cons e rest ih =>
      intro m h
      rw [List.foldl_cons]
      refine ih _ ?_
      cases hm : mget m e.id with
      | none => simpa [hm] using h
      | some a => simp only [hm]; exact keysNodup_mset _ _ _ h
  · exact h

theorem attributeRevenue_keyed (m : List (String × EmpAnalysis)) (p : Project)
    (h : EAKeyed m) : EAKeyed (attributeRevenue m p) := by
  rw [attributeRevenue]
  split
  · suffices hgen : ∀ (emps : List Employee) (m : List (String × EmpAnalysis)),
        EAKeyed m →
        EAKeyed (emps.foldl (fun m e =>
          match mget m e.id with
          | some a =>
            mset m e.id
              { a with
                projectsWorked := a.projectsWorked + 1
                revenueGenerated := a.revenueGenerated +
                  computeTotalCost p.budget p.extensions /
                    ((assignedEmployeesOf p).length : ℚ) }
          | none => m) m) by
      exact hgen _ m h
    intro emps
    induction emps with
    | nil => intro m h; exact h
    | cons e rest ih =>
      intro m h
      rw [List.foldl_cons]
      refine ih _ ?_
      cases hm : mget m e.id with
      | none => simpa [hm] using h
      | some a =>
        simp only [hm]
        intro q hq
        rcases mem_mset _ _ _ _ hq with rfl | hq
        · have := h (e.id, a) (mget_eq_some_mem _ _ _ hm)
          simpa using this
        · exact h q hq
  · exact h

theorem attributeRevenue_mget_other (m : List (String × EmpAnalysis)) (p : Project)
    (k : String) (h : ∀ e ∈ assignedEmployeesOf p, e.id ≠ k) :
    mget (attributeRevenue m p) k = mget m k := by
  rw [attributeRevenue]
  split
  · suffices hgen : ∀ (emps : List Employee), (∀ e ∈ emps, e.id ≠ k) →
        ∀ (m : List (String × EmpAnalysis)),
        mget (emps.foldl (fun m e =>
          match mget m e.id with
          | some a =>
            mset m e.id
              { a with
                projectsWorked := a.projectsWorked + 1
                revenueGenerated := a.revenueGenerated +
                  computeTotalCost p.budget p.extensions /
                    ((assignedEmployeesOf p).length : ℚ) }
          | none => m) m) k = mget m k by
      exact hgen _ h m
    intro emps hemps
    induction emps with
    | nil => intro m; rfl
    | cons e rest ih =>
      intro m
      rw [List.foldl_cons]
      rw [ih (fun x hx => hemps x (List.mem_cons_of_mem e hx))]
      cases hm : mget m e.id with
      | none => simp [hm]
      | some a =>
        simp only [hm]
        exact mget_mset_ne _ _ _ _ (fun hc => hemps e (by simp) (hc ▸ rfl))
  · rfl

theorem foldl_attributeRevenue_mget_other (projects : List Project)
    (m : List (String × EmpAnalysis)) (k : String)
    (h : ∀ p ∈ projects, ∀ e ∈ assignedEmployeesOf p, e.id ≠ k) :
    mget (projects.foldl attributeRevenue m) k = mget m k := by
  induction projects generalizing m with
  | nil => rfl
  | cons p rest ih =>
    rw [List.foldl_cons, ih _ (fun q hq => h q (List.mem_cons_of_mem p hq)),
      attributeRevenue_mget_other m p k (h p (by simp))]

theorem foldl_attributeRevenue_keysNodup (projects : List Project)
    (m : List (String × EmpAnalysis)) (h : KeysNodup m) :
    KeysNodup (projects.foldl attributeRevenue m) := by
  induction projects generalizing m with
  | nil => exact h
  | cons p rest ih => exact ih _ (attributeRevenue_keysNodup m p h)

theorem foldl_attributeRevenue_keyed (projects : List Project)
    (m : List (String × EmpAnalysis)) (h : EAKeyed m) :
    EAKeyed (projects.foldl attributeRevenue m) := by
  induction projects generalizing m with
  | nil => exact h
  | cons p rest ih => exact ih _ (attributeRevenue_keyed m p h)

/-- C10: `projectsWorked` and `revenueGenerated` are attributed only over each
project's currently assigned employees (records with no `unassignedAt`), while
salary cost accrues from all historical records — so an employee none of whose
records is current ends with `projectsWorked = 0`, `revenueGenerated = 0` and
`profitContribution` equal to minus their accumulated salary cost. -/
theorem claim10_historical_assignments_cost_only :
    ∀ (allProjects : List Project) (allEmployees : List Employee)
      (salaries : List SalaryRecord) (today : Int) (a : EmpAnalysis),
      a ∈ profitLossEmployeeAnalysis allProjects allEmployees salaries today →
      (∀ p ∈ allProjects, ∀ r ∈ p.assignments, r.unassignedAt = none →
        r.employee.id ≠ a.employeeId) →
      a.projectsWorked = 0 ∧ a.revenueGenerated = 0 ∧
        a.profitContribution = -a.totalSalaryCost ∧
        a.totalSalaryCost =
          (mget (calculateDateDrivenCosts allProjects allEmployees salaries
              today).employeeCosts a.employeeId).getD 0 := by
  intro allProjects allEmployees salaries today a hmem hnone
  rw [profitLossEmployeeAnalysis, employeeAnalysisOf] at hmem
  obtain ⟨pr, hpr, hfin⟩ := List.mem_map.mp hmem
  set costs := (calculateDateDrivenCosts allProjects allEmployees salaries
    today).employeeCosts with hcosts
  set util := (calculateDateDrivenCosts allProjects allEmployees salaries
    today).employeeUtilization with hutil
  have hkeyed := foldl_attributeRevenue_keyed allProjects
    (initEmployeeAnalysis allEmployees costs util)
    (fun q hq => (initEA_entry allEmployees costs util q hq).1)
  have hnd := foldl_attributeRevenue_keysNodup allProjects
    (initEmployeeAnalysis allEmployees costs util)
    (initEA_keysNodup allEmployees costs util)
  have hprkey : pr.2.employeeId = pr.1 := hkeyed pr hpr
  have haid : a.employeeId = pr.1 := by
    rw [← hfin, finalizeEmp]
    exact hprkey
  have hget : mget (allProjects.foldl attributeRevenue
      (initEmployeeAnalysis allEmployees costs util)) pr.1 = some pr.2 := by
    refine mget_of_mem_keysNodup _ _ _ hnd ?_
    have : pr = (pr.1, pr.2) := rfl
    rw [← this]
    exact hpr
  have hother : ∀ p ∈ allProjects, ∀ e ∈ assignedEmployeesOf p, e.id ≠ pr.1 := by
    intro p hp e he
    rw [assignedEmployeesOf] at he
    obtain ⟨r, hr, hre⟩ := List.mem_map.mp he
    have hrf := List.mem_filter.mp hr
    have hru : r.unassignedAt = none := Option.isNone_iff_eq_none.mp hrf.2
    have := hnone p hp r hrf.1 hru
    rw [hre] at this
    rw [← haid]
    exact this
  rw [foldl_attributeRevenue_mget_other allProjects _ pr.1 hother] at hget
  have hinit := initEA_entry allEmployees costs util (pr.1, pr.2)
    (mget_eq_some_mem _ _ _ hget)
  simp only at hinit
  obtain ⟨_, hpw, hrg, htsc⟩ := hinit
  rw [← hfin]
  simp only [finalizeEmp]
  refine ⟨hpw, hrg, ?_, ?_⟩
  · rw [hrg]
    ring
  · rw [hprkey]
    exact htsc

/-- A completed 5-day project whose only assignment record was later
unassigned (a purely historical assignment). -/
def histProject : Project :=
  ⟨"p3", "P3", 8640000000, 8985600000, none, 1000, "completed", [], [],
    [⟨"e1", ⟨"e1", "Alice", some 365⟩, 8640000000, some 17280000000⟩]⟩

/-- C10 witness: the employee accrued 5 units of salary cost from the
historical record, yet gets `projectsWorked = 0`, `revenueGenerated = 0` and
`profitContribution = -5`. -/
theorem claim10_historical_assignments_cost_only_witness :
    (⟨"e1", "Alice", 5, 0, 0, -5, 100⟩ : EmpAnalysis) ∈
        profitLossEmployeeAnalysis [histProject] [⟨"e1", "Alice", some 365⟩] []
          25920000000 ∧
      (⟨"e1", "Alice", 5, 0, 0, -5, 100⟩ : EmpAnalysis).profitContribution =
        -(⟨"e1", "Alice", 5, 0, 0, -5, 100⟩ : EmpAnalysis).totalSalaryCost ∧
      (⟨"e1", "Alice", 5, 0, 0, -5, 100⟩ : EmpAnalysis).totalSalaryCost =
        (mget (calculateDateDrivenCosts [histProject] [⟨"e1", "Alice", some 365⟩] []
            25920000000).employeeCosts "e1").getD 0 ∧
      (0 : ℚ) < (⟨"e1", "Alice", 5, 0, 0, -5, 100⟩ : EmpAnalysis).totalSalaryCost := by
  have hlist : profitLossEmployeeAnalysis [histProject] [⟨"e1", "Alice", some 365⟩] []
      25920000000 = [⟨"e1", "Alice", 5, 0, 0, -5, 100⟩] := by
    with_unfolding_all rfl
  have hmem : (⟨"e1", "Alice", 5, 0, 0, -5, 100⟩ : EmpAnalysis) ∈
      profitLossEmployeeAnalysis [histProject] [⟨"e1", "Alice", some 365⟩] []
        25920000000 := by
    rw [hlist]
    simp
  have h := claim10_historical_assignments_cost_only [histProject]
    [⟨"e1", "Alice", some 365⟩] [] 25920000000 ⟨"e1", "Alice", 5, 0, 0, -5, 100⟩ hmem
    (by with_unfolding_all decide)
  exact ⟨hmem, h.2.2.1, h.2.2.2, by norm_num⟩

/-! ## Claim C3: utilization counters (specification helpers and lemmas) -/

/-- The working-day count an employee id currently holds (0 when absent). -/
def wdOf (m : List (String × Util)) (k : String) : Nat :=
  match mget m k with
  | some u => u.workingDays
  | none => 0

/-- The total-day count an employee id currently holds (0 when absent). -/
def tdOf (m : List (String × Util)) (k : String) : Nat :=
  match mget m k with
  | some u => u.totalDaysInAnalysis
  | none => 0

theorem mget_isSome_iff_keys {α : Type} (m : List (String × α)) (k : String) :
    (mget m k).isSome ↔ k ∈ m.map (fun p => p.1) := by
  induction m with
  | nil => simp [mget]
  | cons p rest ih =>
    by_cases h : p.1 = k
    · simp [mget, h]
    · simp only [mget, if_neg h, List.map_cons, List.mem_cons]
      rw [ih]
      constructor
      · intro hk
        exact Or.inr hk
      · intro hk
        rcases hk with hk | hk
        · exact absurd hk.symm h
        · exact hk

theorem keys_incWorking (m : List (String × Util)) (k : String) :
    (incWorking m k).map (fun p => p.1) = m.map (fun p => p.1) := by
  induction m with
  | nil => rfl
  | cons p rest ih =>
    by_cases h : p.1 = k
    · simp [incWorking, h]
    · simp [incWorking, h, ih]

theorem keys_incTotal (m : List (String × Util)) (k : String) :
    (incTotal m k).map (fun p => p.1) = m.map (fun p => p.1) := by
  induction m with
  | nil => rfl
  | cons p rest ih =>
    by_cases h : p.1 = k
    · simp [incTotal, h]
    · simp [incTotal, h, ih]

theorem wdOf_incWorking_le (m : List (String × Util)) (k k' : String) :
    wdOf (incWorking m k) k' ≤ wdOf m k' + (if k' = k then 1 else 0) := by
  rw [wdOf, wdOf, mget_incWorking]
  by_cases h : k' = k
  · rw [if_pos h, if_pos h]
    cases mget m k' with
    | none => simp
    | some u => simp
  · rw [if_neg h, if_neg h]
    omega

theorem tdOf_incWorking (m : List (String × Util)) (k k' : String) :
    tdOf (incWorking m k) k' = tdOf m k' := by
  rw [tdOf, tdOf, mget_incWorking]
  by_cases h : k' = k
  · rw [if_pos h]
    cases mget m k' with
    | none => rfl
    | some u => rfl
  · rw [if_neg h]

theorem wdOf_incTotal (m : List (String × Util)) (k k' : String) :
    wdOf (incTotal m k) k' = wdOf m k' := by
  rw [wdOf, wdOf, mget_incTotal]
  by_cases h : k' = k
  · rw [if_pos h]
    cases mget m k' with
    | none => rfl
    | some u => rfl
  · rw [if_neg h]

theorem tdOf_incTotal_ge (m : List (String × Util)) (k k' : String) :
    tdOf m k' ≤ tdOf (incTotal m k) k' := by
  rw [tdOf, tdOf, mget_incTotal]
  by_cases h : k' = k
  · rw [if_pos h]
    cases mget m k' with
    | none => simp
    | some u => simp
  · rw [if_neg h]

theorem tdOf_incTotal_self (m : List (String × Util)) (k : String)
    (h : (mget m k).isSome) : tdOf (incTotal m k) k = tdOf m k + 1 := by
  rw [tdOf, tdOf, mget_incTotal, if_pos rfl]
  obtain ⟨u, hu⟩ := Option.isSome_iff_exists.mp h
  rw [hu]
  rfl

theorem tdOf_incTotal_ne (m : List (String × Util)) (k k' : String) (h : k' ≠ k) :
    tdOf (incTotal m k) k' = tdOf m k' := by
  rw [tdOf, tdOf, mget_incTotal, if_neg h]

theorem applyPair_util_keys (salaries : List SalaryRecord) (employees : List Employee)
    (counts : List (String × Nat)) (t : Int) (projectId : String) (e : Employee)
    (s : CostState) :
    (applyPair salaries employees counts t projectId e s).employeeUtilization.map
        (fun p => p.1) =
      s.employeeUtilization.map (fun p => p.1) := by
  rw [applyPair]
  split
  · rfl
  · exact keys_incWorking _ _

theorem applyPair_wdOf_le (salaries : List SalaryRecord) (employees : List Employee)
    (counts : List (String × Nat)) (t : Int) (projectId : String) (e : Employee)
    (s : CostState) (k : String) :
    wdOf (applyPair salaries employees counts t projectId e s).employeeUtilization k ≤
      wdOf s.employeeUtilization k + (if e.id = k then 1 else 0) := by
  rw [applyPair]
  split
  · omega
  · have h := wdOf_incWorking_le s.employeeUtilization e.id k
    by_cases hk : k = e.id
    · subst hk
      simpa using h
    · rw [if_neg (fun hc : e.id = k => hk hc.symm)]
      rw [if_neg hk] at h
      simpa using h

theorem applyPair_tdOf (salaries : List SalaryRecord) (employees : List Employee)
    (counts : List (String × Nat)) (t : Int) (projectId : String) (e : Employee)
    (s : CostState) (k : String) :
    tdOf (applyPair salaries employees counts t projectId e s).employeeUtilization k =
      tdOf s.employeeUtilization k := by
  rw [applyPair]
  split
  · rfl
  · exact tdOf_incWorking _ _ _

theorem foldPairs_wdOf_le (salaries : List SalaryRecord) (employees : List Employee)
    (counts : List (String × Nat)) (t : Int) (pid : String) (emps : List Employee) :
    ∀ (s : CostState) (k : String),
      wdOf (emps.foldl (fun s e => applyPair salaries employees counts t pid e s)
          s).employeeUtilization k ≤
        wdOf s.employeeUtilization k +
          (emps.filter (fun e => decide (e.id = k))).length := by
  induction emps with
  | nil => intro s k; simp
  | cons e rest ih =>
    intro s k
    rw [List.foldl_cons]
    have h1 := ih (applyPair salaries employees counts t pid e s) k
    have h2 := applyPair_wdOf_le salaries employees counts t pid e s k
    by_cases hk : e.id = k
    · rw [if_pos hk] at h2
      rw [List.filter_cons_of_pos (by simp [hk])]
      simp only [List.length_cons]
      omega
    · rw [if_neg hk] at h2
      rw [List.filter_cons_of_neg (by simp [hk])]
      omega

theorem foldPairs_tdOf (salaries : List SalaryRecord) (employees : List Employee)
    (counts : List (String × Nat)) (t : Int) (pid : String) (emps : List Employee) :
    ∀ (s : CostState) (k : String),
      tdOf (emps.foldl (fun s e => applyPair salaries employees counts t pid e s)
          s).employeeUtilization k = tdOf s.employeeUtilization k := by
  induction emps with
  | nil => intro s k; rfl
  | cons e rest ih =>
    intro s k
    rw [List.foldl_cons, ih, applyPair_tdOf]

theorem foldPairs_keys (salaries : List SalaryRecord) (employees : List Employee)
    (counts : List (String × Nat)) (t : Int) (pid : String) (emps : List Employee) :
    ∀ (s : CostState),
      (emps.foldl (fun s e => applyPair salaries employees counts t pid e s)
          s).employeeUtilization.map (fun p => p.1) =
        s.employeeUtilization.map (fun p => p.1) := by
  induction emps with
  | nil => intro s; rfl
  | cons e rest ih =>
    intro s
    rw [List.foldl_cons, ih, applyPair_util_keys]

theorem distributeDay_wdOf_le (salaries : List SalaryRecord) (employees : List Employee)
    (counts : List (String × Nat)) (t : Int)
    (active : List (String × Project × List Employee)) :
    ∀ (s : CostState) (k : String),
      wdOf (distributeDay salaries employees counts t active s).employeeUtilization k ≤
        wdOf s.employeeUtilization k + occCount active k := by
  induction active with
  | nil => intro s k; simp [distributeDay, occCount]
  | cons en rest ih =>
    intro s k
    rw [distributeDay, List.foldl_cons]
    have hstep : List.foldl
        (fun s en => en.2.2.foldl (fun s e => applyPair salaries employees counts t en.1 e s) s)
        (en.2.2.foldl (fun s e => applyPair salaries employees counts t en.1 e s) s) rest =
        distributeDay salaries employees counts t rest
          (en.2.2.foldl (fun s e => applyPair salaries employees counts t en.1 e s) s) := rfl
    rw [hstep]
    have h1 := ih (en.2.2.foldl (fun s e => applyPair salaries employees counts t en.1 e s) s) k
    have h2 := foldPairs_wdOf_le salaries employees counts t en.1 en.2.2 s k
    rw [occCount]
    omega

theorem distributeDay_tdOf (salaries : List SalaryRecord) (employees : List Employee)
    (counts : List (String × Nat)) (t : Int)
    (active : List (String × Project × List Employee)) :
    ∀ (s : CostState) (k : String),
      tdOf (distributeDay salaries employees counts t active s).employeeUtilization k =
        tdOf s.employeeUtilization k := by
  induction active with
  | nil => intro s k; rfl
  | cons en rest ih =>
    intro s k
    rw [distributeDay, List.foldl_cons]
    have hstep : List.foldl
        (fun s en => en.2.2.foldl (fun s e => applyPair salaries employees counts t en.1 e s) s)
        (en.2.2.foldl (fun s e => applyPair salaries employees counts t en.1 e s) s) rest =
        distributeDay salaries employees counts t rest
          (en.2.2.foldl (fun s e => applyPair salaries employees counts t en.1 e s) s) := rfl
    rw [hstep, ih, foldPairs_tdOf]

theorem distributeDay_keys (salaries : List SalaryRecord) (employees : List Employee)
    (counts : List (String × Nat)) (t : Int)
    (active : List (String × Project × List Employee)) :
    ∀ (s : CostState),
      (distributeDay salaries employees counts t active s).employeeUtilization.map
          (fun p => p.1) =
        s.employeeUtilization.map (fun p => p.1) := by
  induction active with
  | nil => intro s; rfl
  | cons en rest ih =>
    intro s
    rw [distributeDay, List.foldl_cons]
    have hstep : List.foldl
        (fun s en => en.2.2.foldl (fun s e => applyPair salaries employees counts t en.1 e s) s)
        (en.2.2.foldl (fun s e => applyPair salaries employees counts t en.1 e s) s) rest =
        distributeDay salaries employees counts t rest
          (en.2.2.foldl (fun s e => applyPair salaries employees counts t en.1 e s) s) := rfl
    rw [hstep, ih, foldPairs_keys]

theorem incTotalDays_wdOf (emps : List Employee) :
    ∀ (u : List (String × Util)) (k : String), wdOf (incTotalDays emps u) k = wdOf u k := by
  induction emps with
  | nil => intro u k; rfl
  | cons e rest ih =>
    intro u k
    rw [incTotalDays, List.foldl_cons]
    have hstep : rest.foldl (fun u e => incTotal u e.id) (incTotal u e.id) =
        incTotalDays rest (incTotal u e.id) := rfl
    rw [hstep, ih, wdOf_incTotal]

theorem incTotalDays_tdOf_ge (emps : List Employee) :
    ∀ (u : List (String × Util)) (k : String), tdOf u k ≤ tdOf (incTotalDays emps u) k := by
  induction emps with
  | nil => intro u k; exact le_refl _
  | cons e rest ih =>
    intro u k
    rw [incTotalDays, List.foldl_cons]
    have hstep : rest.foldl (fun u e => incTotal u e.id) (incTotal u e.id) =
        incTotalDays rest (incTotal u e.id) := rfl
    rw [hstep]
    exact le_trans (tdOf_incTotal_ge u e.id k) (ih (incTotal u e.id) k)

theorem incTotalDays_keys (emps : List Employee) :
    ∀ (u : List (String × Util)),
      (incTotalDays emps u).map (fun p => p.1) = u.map (fun p => p.1) := by
  induction emps with
  | nil => intro u; rfl
  | cons e rest ih =>
    intro u
    rw [incTotalDays, List.foldl_cons]
    have hstep : rest.foldl (fun u e => incTotal u e.id) (incTotal u e.id) =
        incTotalDays rest (incTotal u e.id) := rfl
    rw [hstep, ih, keys_incTotal]

theorem incTotalDays_tdOf_succ (emps : List Employee) :
    ∀ (u : List (String × Util)) (k : String), (mget u k).isSome →
      k ∈ emps.map (fun e => e.id) →
      tdOf u k + 1 ≤ tdOf (incTotalDays emps u) k := by
  induction emps with
  | nil => intro u k _ hk; simp at hk
  | cons e rest ih =>
    intro u k hsome hk
    rw [incTotalDays, List.foldl_cons]
    have hstep : rest.foldl (fun u e => incTotal u e.id) (incTotal u e.id) =
        incTotalDays rest (incTotal u e.id) := rfl
    rw [hstep]
    by_cases hke : k = e.id
    · have h1 : tdOf (incTotal u e.id) k = tdOf u k + 1 := by
        rw [hke]
        exact tdOf_incTotal_self u e.id (hke ▸ hsome)
      have h2 := incTotalDays_tdOf_ge rest (incTotal u e.id) k
      omega
    · have hmem : k ∈ rest.map (fun e => e.id) := by
        rcases List.mem_map.mp hk with ⟨a, ha, hak⟩
        rcases List.mem_cons.mp ha with rfl | ha'
        · exact absurd hak.symm hke
        · exact List.mem_map.mpr ⟨a, ha', hak⟩
      have hsome' : (mget (incTotal u e.id) k).isSome := by
        rw [mget_incTotal, if_neg hke]
        exact hsome
      have h1 := ih (incTotal u e.id) k hsome' hmem
      rw [tdOf_incTotal_ne u e.id k hke] at h1
      exact h1

theorem occCount_pos (active : List (String × Project × List Employee)) (k : String)
    (h : 0 < occCount active k) :
    ∃ en ∈ active, ∃ e ∈ en.2.2, e.id = k := by
  induction active with
  | nil => simp [occCount] at h
  | cons en rest ih =>
    rw [occCount] at h
    by_cases h0 : 0 < (en.2.2.filter (fun e => decide (e.id = k))).length
    · obtain ⟨e, he⟩ := List.exists_mem_of_length_pos h0
      have := List.mem_filter.mp he
      exact ⟨en, by simp, e, this.1, by simpa using this.2⟩
    · have : 0 < occCount rest k := by omega
      obtain ⟨en', hen', e, he, hek⟩ := ih this
      exact ⟨en', List.mem_cons_of_mem en hen', e, he, hek⟩

theorem occCount_le_one_of_pairs (active : List (String × Project × List Employee))
    (h : ∀ en ∈ active, ∀ e ∈ en.2.2, occCount active e.id ≤ 1) :
    ∀ k, occCount active k ≤ 1 := by
  intro k
  by_cases h0 : 0 < occCount active k
  · obtain ⟨en, hen, e, he, hek⟩ := occCount_pos active k h0
    rw [← hek]
    exact h en hen e he
  · omega

/-- The utilization invariant: every tracked employee id belongs to the
supplied employee list and its working-day counter never exceeds its
total-day counter. -/
def UtilInv (ids : List String) (m : List (String × Util)) : Prop :=
  ∀ (k : String) (u : Util), mget m k = some u →
    u.workingDays ≤ u.totalDaysInAnalysis ∧ k ∈ ids

theorem processDay_util_keys (salaries : List SalaryRecord) (allEmployees : List Employee)
    (allProjects : List Project) (today t : Int) (s : CostState) :
    (processDay salaries allEmployees allProjects today t s).employeeUtilization.map
        (fun p => p.1) =
      s.employeeUtilization.map (fun p => p.1) := by
  rw [processDay]
  rw [incTotalDays_keys, distributeDay_keys]

theorem processDay_utilInv (salaries : List SalaryRecord) (allEmployees : List Employee)
    (allProjects : List Project) (today t : Int) (s : CostState)
    (hocc : ∀ k, occCount (buildActiveToday allProjects t today) k ≤ 1)
    (hinv : UtilInv (allEmployees.map (fun e => e.id)) s.employeeUtilization) :
    UtilInv (allEmployees.map (fun e => e.id))
      (processDay salaries allEmployees allProjects today t s).employeeUtilization := by
  intro k u hu
  have hpd : (processDay salaries allEmployees allProjects today t s).employeeUtilization =
      incTotalDays allEmployees
        (distributeDay salaries allEmployees (countsOf (buildActiveToday allProjects t today))
          t (buildActiveToday allProjects t today) s).employeeUtilization := rfl
  rw [hpd] at hu
  set active := buildActiveToday allProjects t today with hactive
  set s1 := distributeDay salaries allEmployees (countsOf active) t active s with hs1
  have hsomeF : (mget (incTotalDays allEmployees s1.employeeUtilization) k).isSome := by
    rw [hu]
    rfl
  have hsome1 : (mget s1.employeeUtilization k).isSome := by
    rw [mget_isSome_iff_keys] at hsomeF ⊢
    rwa [incTotalDays_keys] at hsomeF
  have hsome0 : (mget s.employeeUtilization k).isSome := by
    rw [mget_isSome_iff_keys] at hsome1 ⊢
    rwa [hs1, distributeDay_keys] at hsome1
  obtain ⟨u0, hu0⟩ := Option.isSome_iff_exists.mp hsome0
  obtain ⟨hwd0, hkid⟩ := hinv k u0 hu0
  have hwd1 := distributeDay_wdOf_le salaries allEmployees (countsOf active) t active s k
  have htd1 := distributeDay_tdOf salaries allEmployees (countsOf active) t active s k
  rw [← hs1] at hwd1 htd1
  have hwdF := incTotalDays_wdOf allEmployees s1.employeeUtilization k
  have htdF := incTotalDays_tdOf_succ allEmployees s1.employeeUtilization k hsome1 hkid
  have hocck := hocc k
  have hwd0e : wdOf s.employeeUtilization k = u0.workingDays := by
    simp [wdOf, hu0]
  have htd0e : tdOf s.employeeUtilization k = u0.totalDaysInAnalysis := by
    simp [tdOf, hu0]
  have hwdue : wdOf (incTotalDays allEmployees s1.employeeUtilization) k = u.workingDays := by
    simp [wdOf, hu]
  have htdue : tdOf (incTotalDays allEmployees s1.employeeUtilization) k =
      u.totalDaysInAnalysis := by
    simp [tdOf, hu]
  exact ⟨by omega, hkid⟩

theorem walk_utilInv (salaries : List SalaryRecord) (allEmployees : List Employee)
    (allProjects : List Project) (today : Int) :
    ∀ (days : List Int) (s : CostState),
      (∀ t ∈ days, ∀ k, occCount (buildActiveToday allProjects t today) k ≤ 1) →
      UtilInv (allEmployees.map (fun e => e.id)) s.employeeUtilization →
      UtilInv (allEmployees.map (fun e => e.id))
        (days.foldl (fun s t => processDay salaries allEmployees allProjects today t s)
          s).employeeUtilization := by
  intro days
  induction days with
  | nil => intro s _ hinv; exact hinv
  | cons t rest ih =>
    intro s hocc hinv
    rw [List.foldl_cons]
    exact ih _ (fun t' ht' => hocc t' (List.mem_cons_of_mem t ht'))
      (processDay_utilInv salaries allEmployees allProjects today t s
        (hocc t (by simp)) hinv)

theorem walk_util_keys (salaries : List SalaryRecord) (allEmployees : List Employee)
    (allProjects : List Project) (today : Int) :
    ∀ (days : List Int) (s : CostState),
      (days.foldl (fun s t => processDay salaries allEmployees allProjects today t s)
          s).employeeUtilization.map (fun p => p.1) =
        s.employeeUtilization.map (fun p => p.1) := by
  intro days
  induction days with
  | nil => intro s; rfl
  | cons t rest ih =>
    intro s
    rw [List.foldl_cons, ih, processDay_util_keys]

theorem initUtil_keys_mem (emps : List Employee) :
    ∀ (acc : List (String × Util)),
      ∀ p ∈ emps.foldl (fun m e => mset m e.id ⟨0, 0⟩) acc,
        p.1 ∈ emps.map (fun e => e.id) ∨ p ∈ acc := by
  induction emps with
  | nil => intro acc p hp; exact Or.inr hp
  | cons e rest ih =>
    intro acc p hp
    rw [List.foldl_cons] at hp
    rcases ih (mset acc e.id ⟨0, 0⟩) p hp with hk | hk
    · exact Or.inl (by simp only [List.map_cons, List.mem_cons]; exact Or.inr hk)
    · rcases mem_mset _ _ _ _ hk with rfl | hk
      · exact Or.inl (by simp)
      · exact Or.inr hk

theorem utilInv_init (allEmployees : List Employee) :
    UtilInv (allEmployees.map (fun e => e.id))
      (allEmployees.foldl (fun m e => mset m e.id ⟨0, 0⟩) []) := by
  intro k u hu
  have hmem := mget_eq_some_mem _ _ _ hu
  have hval := initUtil_values allEmployees [] (by simp) (k, u) hmem
  simp only at hval
  rcases initUtil_keys_mem allEmployees [] (k, u) hmem with hk | hk
  · subst hval
    exact ⟨le_refl 0, hk⟩
  · simp at hk

/-- The engine's utilization counters satisfy the invariant whenever, on every
walked day, each employee appears in at most one active `(project, employee)`
pair. -/
theorem engine_utilInv (allProjects : List Project) (allEmployees : List Employee)
    (salaries : List SalaryRecord) (today : Int)
    (hocc : ∀ t ∈ analysisDays allProjects today,
      ∀ k, occCount (buildActiveToday allProjects t today) k ≤ 1) :
    UtilInv (allEmployees.map (fun e => e.id))
      (calculateDateDrivenCosts allProjects allEmployees salaries
        today).employeeUtilization := by
  have hform : calculateDateDrivenCosts allProjects allEmployees salaries today =
      (analysisDays allProjects today).foldl
        (fun s t => processDay salaries allEmployees allProjects today t s)
        ⟨[], [], [], allEmployees.foldl (fun m e => mset m e.id ⟨0, 0⟩) []⟩ := rfl
  rw [hform]
  exact walk_utilInv salaries allEmployees allProjects today _ _ hocc
    (utilInv_init allEmployees)

theorem engine_util_keysNodup (allProjects : List Project) (allEmployees : List Employee)
    (salaries : List SalaryRecord) (today : Int) :
    KeysNodup (calculateDateDrivenCosts allProjects allEmployees salaries
      today).employeeUtilization := by
  have hform : calculateDateDrivenCosts allProjects allEmployees salaries today =
      (analysisDays allProjects today).foldl
        (fun s t => processDay salaries allEmployees allProjects today t s)
        ⟨[], [], [], allEmployees.foldl (fun m e => mset m e.id ⟨0, 0⟩) []⟩ := rfl
  rw [KeysNodup, hform, walk_util_keys]
  exact foldl_mset_keysNodup allEmployees (fun e => e.id) (fun _ _ => (⟨0, 0⟩ : Util)) []
    keysNodup_nil

theorem rate_bound (wd td : Nat) (h : wd ≤ td) :
    0 ≤ (if td > 0 then ((wd : ℚ) / (td : ℚ)) * 100 else 0) ∧
      (if td > 0 then ((wd : ℚ) / (td : ℚ)) * 100 else 0) ≤ 100 := by
  split
  · rename_i htd
    constructor
    · positivity
    · have htd' : (0 : ℚ) < (td : ℚ) := by exact_mod_cast htd
      have hle : (wd : ℚ) ≤ (td : ℚ) := by exact_mod_cast h
      have hdiv : (wd : ℚ) / (td : ℚ) ≤ 1 := (div_le_one htd').mpr hle
      nlinarith
  · norm_num

theorem initEA_rate (allEmployees : List Employee) (employeeCosts : List (String × ℚ))
    (util : List (String × Util))
    (hutil : ∀ k u, mget util k = some u → u.workingDays ≤ u.totalDaysInAnalysis) :
    ∀ q ∈ initEmployeeAnalysis allEmployees employeeCosts util,
      0 ≤ q.2.utilizationRate ∧ q.2.utilizationRate ≤ 100 := by
  rw [initEmployeeAnalysis]
  suffices hgen : ∀ (emps : List Employee) (acc : List (String × EmpAnalysis)),
      (∀ q ∈ acc, 0 ≤ q.2.utilizationRate ∧ q.2.utilizationRate ≤ 100) →
      ∀ q ∈ emps.foldl (fun m e =>
          mset m e.id
            { employeeId := e.id
              employeeName := e.name
              totalSalaryCost := (mget employeeCosts e.id).getD 0
              projectsWorked := 0
              revenueGenerated := 0
              profitContribution := 0
              utilizationRate :=
                match mget util e.id with
                | some u =>
                  if u.totalDaysInAnalysis > 0 then
                    ((u.workingDays : ℚ) / (u.totalDaysInAnalysis : ℚ)) * 100
                  else 0
                | none => 0 }) acc,
        0 ≤ q.2.utilizationRate ∧ q.2.utilizationRate ≤ 100 by
    exact hgen allEmployees [] (by simp)
  intro emps
  induction emps with
  | nil => intro acc hacc; exact hacc
  | cons e rest ih =>
    intro acc hacc
    rw [List.foldl_cons]
    refine ih _ ?_
    intro q hq
    rcases mem_mset _ _ _ _ hq with rfl | hq
    · simp only
      cases hm : mget util e.id with
      | none => norm_num
      | some u => exact rate_bound u.workingDays u.totalDaysInAnalysis (hutil e.id u hm)
    · exact hacc q hq

theorem attributeRevenue_rate (m : List (String × EmpAnalysis)) (p : Project)
    (h : ∀ q ∈ m, 0 ≤ q.2.utilizationRate ∧ q.2.utilizationRate ≤ 100) :
    ∀ q ∈ attributeRevenue m p, 0 ≤ q.2.utilizationRate ∧ q.2.utilizationRate ≤ 100 := by
  rw [attributeRevenue]
  split
  · suffices hgen : ∀ (emps : List Employee) (m : List (String × EmpAnalysis)),
        (∀ q ∈ m, 0 ≤ q.2.utilizationRate ∧ q.2.utilizationRate ≤ 100) →
        ∀ q ∈ emps.foldl (fun m e =>
          match mget m e.id with
          | some a =>
            mset m e.id
              { a with
                projectsWorked := a.projectsWorked + 1
                revenueGenerated := a.revenueGenerated +
                  computeTotalCost p.budget p.extensions /
                    ((assignedEmployeesOf p).length : ℚ) }
          | none => m) m,
          0 ≤ q.2.utilizationRate ∧ q.2.utilizationRate ≤ 100 by
      exact hgen _ m h
    intro emps
    induction emps with
    | nil => intro m h; exact h
    | cons e rest ih =>
      intro m h
      rw [List.foldl_cons]
      refine ih _ ?_
      cases hm : mget m e.id with
      | none => simpa [hm] using h
      | some a =>
        simp only [hm]
        intro q hq
        rcases mem_mset _ _ _ _ hq with rfl | hq
        · simpa using h (e.id, a) (mget_eq_some_mem _ _ _ hm)
        · exact h q hq
  · exact h

theorem foldl_attributeRevenue_rate (projects : List Project)
    (m : List (String × EmpAnalysis))
    (h : ∀ q ∈ m, 0 ≤ q.2.utilizationRate ∧ q.2.utilizationRate ≤ 100) :
    ∀ q ∈ projects.foldl attributeRevenue m,
      0 ≤ q.2.utilizationRate ∧ q.2.utilizationRate ≤ 100 := by
  induction projects generalizing m with
  | nil => exact h
  | cons p rest ih => exact ih _ (attributeRevenue_rate m p h)

/-- C3 (amended): provided each employee appears in at most one active
`(project, employee)` pair on every walked day, the engine's working-day
counter never exceeds the total-day counter and every reported utilization
rate lies in `[0, 100]`.  (Without that proviso the claim is false: the
counter is bumped once per active pair, not once per day.) -/
theorem claim3_utilization_in_range_amended :
    ∀ (allProjects : List Project) (allEmployees : List Employee)
      (salaries : List SalaryRecord) (today : Int),
      (∀ t ∈ analysisDays allProjects today,
        ∀ en ∈ buildActiveToday allProjects t today,
        ∀ e ∈ en.2.2, occCount (buildActiveToday allProjects t today) e.id ≤ 1) →
      (∀ q ∈ (calculateDateDrivenCosts allProjects allEmployees salaries
          today).employeeUtilization,
        q.2.workingDays ≤ q.2.totalDaysInAnalysis) ∧
      (∀ a ∈ profitLossEmployeeAnalysis allProjects allEmployees salaries today,
        0 ≤ a.utilizationRate ∧ a.utilizationRate ≤ 100) := by
  intro allProjects allEmployees salaries today hpairs
  have hocc : ∀ t ∈ analysisDays allProjects today,
      ∀ k, occCount (buildActiveToday allProjects t today) k ≤ 1 :=
    fun t ht => occCount_le_one_of_pairs _ (hpairs t ht)
  have hinv := engine_utilInv allProjects allEmployees salaries today hocc
  have hnd := engine_util_keysNodup allProjects allEmployees salaries today
  constructor
  · intro q hq
    have hget : mget (calculateDateDrivenCosts allProjects allEmployees salaries
        today).employeeUtilization q.1 = some q.2 :=
      mget_of_mem_keysNodup _ _ _ hnd hq
    exact (hinv q.1 q.2 hget).1
  · intro a ha
    rw [profitLossEmployeeAnalysis, employeeAnalysisOf] at ha
    obtain ⟨pr, hpr, hfin⟩ := List.mem_map.mp ha
    have hinitRate := initEA_rate allEmployees
      (calculateDateDrivenCosts allProjects allEmployees salaries today).employeeCosts
      (calculateDateDrivenCosts allProjects allEmployees salaries today).employeeUtilization
      (fun k u hu => (hinv k u hu).1)
    have hrate := foldl_attributeRevenue_rate allProjects _ hinitRate pr hpr
    rw [← hfin]
    simpa [finalizeEmp] using hrate

/-- Two one-day projects, both active on day 100, sharing one employee. -/
def simulProjectA : Project :=
  ⟨"p1", "P1", 8640000000, 8640000000, none, 1000, "in-progress", [], [],
    [⟨"e1", ⟨"e1", "A", some 365⟩, 8640000000, none⟩]⟩

/-- The second simultaneous one-day project. -/
def simulProjectB : Project :=
  ⟨"p2", "P2", 8640000000, 8640000000, none, 1000, "in-progress", [], [],
    [⟨"e1", ⟨"e1", "A", some 365⟩, 8640000000, none⟩]⟩

/-- C3 counterexample: the employee is active on two simultaneous projects on
the single analysed day, so the working-day counter reaches 2 against 1 total
day and the reported utilization rate is 200 — outside `[0, 100]`. -/
theorem claim3_utilization_counterexample :
    (calculateDateDrivenCosts [simulProjectA, simulProjectB] [⟨"e1", "A", some 365⟩] []
        25920000000).employeeUtilization = [("e1", ⟨2, 1⟩)] ∧
      (profitLossEmployeeAnalysis [simulProjectA, simulProjectB] [⟨"e1", "A", some 365⟩]
          [] 25920000000).map (fun a => a.utilizationRate) = [200] ∧
      ¬ ((200 : ℚ) ≤ 100) := by
  refine ⟨by with_unfolding_all rfl, by with_unfolding_all rfl, by norm_num⟩

/-- A single one-day project with a single assigned employee. -/
def soloProject : Project :=
  ⟨"p1", "P1", 8640000000, 8640000000, none, 1000, "in-progress", [], [],
    [⟨"e1", ⟨"e1", "A", some 365⟩, 8640000000, none⟩]⟩

/-- C3 witness: with one project per employee per day, the amended theorem
applies and every reported utilization rate is within `[0, 100]`. -/
theorem claim3_utilization_in_range_amended_witness :
    (∀ t ∈ analysisDays [soloProject] 25920000000,
      ∀ en ∈ buildActiveToday [soloProject] t 25920000000,
      ∀ e ∈ en.2.2, occCount (buildActiveToday [soloProject] t 25920000000) e.id ≤ 1) ∧
    (∀ a ∈ profitLossEmployeeAnalysis [soloProject] [⟨"e1", "A", some 365⟩] []
        25920000000,
      0 ≤ a.utilizationRate ∧ a.utilizationRate ≤ 100) := by
  have hp : ∀ t ∈ analysisDays [soloProject] 25920000000,
      ∀ en ∈ buildActiveToday [soloProject] t 25920000000,
      ∀ e ∈ en.2.2, occCount (buildActiveToday [soloProject] t 25920000000) e.id ≤ 1 := by
    with_unfolding_all decide
  exact ⟨hp, (claim3_utilization_in_range_amended [soloProject] [⟨"e1", "A", some 365⟩]
    [] 25920000000 hp).2⟩

end ProjectPL
